import Mathlib

/-!
Verification of the archive-duplicate-finder core against its specification.

Shallow embedding conventions, used throughout:

* Go strings are modelled as `List Char` (`GoStr`).  The Go code mixes
  byte-level loops (`jaroSimilarity`, `getNgrams`, prefix comparison) with
  rune-level loops (`levenshteinDistance`, `utf8.RuneCountInString`); on
  single-byte (ASCII) characters the two views coincide, and every property
  proved here is insensitive to the distinction (the combinatorial arguments
  are uniform in the alphabet).  `strings.ToLower` is modelled by its ASCII
  action.
* Go `float64` arithmetic is modelled by exact rational arithmetic (`ℚ`).
  `math.Round` (round half away from zero) is `roundHalfAway`.  All claims
  settled against this model are robust to this choice: none of them depends
  on ulp-level rounding of IEEE doubles.
* Go `int`/`int64` are modelled as `Int` where a subtraction can occur,
  `Nat` for loop indices and lengths.
* Concurrency is modelled by explicit schedule parameters: a worker pool
  writing into a channel is a deterministic function of the file list plus a
  `schedule` argument that fixes the order in which the collector receives
  the workers' messages.
-/

/-- A Go string, modelled as its list of characters. -/
abbrev GoStr := List Char

/-- Character list of a Lean string literal (used for concrete test inputs). -/
def gs (s : String) : GoStr := s.data

/-! ## internal/similarity/name.go -/

/-- ASCII action of Go `strings.ToLower` on one character. -/
def goToLower (c : Char) : Char :=
  if 'A' ≤ c ∧ c ≤ 'Z' then Char.ofNat (c.toNat + 32) else c

/-- Whitespace set of Go `strings.TrimSpace`, restricted to ASCII. -/
def isGoSpace (c : Char) : Bool :=
  c = ' ' ∨ c = '\t' ∨ c = '\n' ∨ c = '\r' ∨ c = Char.ofNat 11 ∨ c = Char.ofNat 12

/-- Go `strings.TrimSpace`. -/
def trimSpace (s : GoStr) : GoStr :=
  ((s.dropWhile isGoSpace).reverse.dropWhile isGoSpace).reverse

/-- Go `strings.LastIndex(s, string(c))` for a single character needle:
index of the last occurrence, if any. -/
def lastIndexOf (s : GoStr) (c : Char) : Option Nat :=
  (List.range s.length).foldl
    (fun acc i => if s.getD i default = c then some i else acc) none

/-- `normalizeFilename` (src/internal/similarity/name.go:129): strip the part
from the last dot on, lower-case, replace `_` and `-` by spaces, trim. -/
def normalizeFilename (filename : GoStr) : GoStr :=
  let name :=
    match lastIndexOf filename '.' with
    | some idx => filename.take idx
    | none => filename
  let name := name.map goToLower
  let name := name.map fun ch => if ch = '_' then ' ' else ch
  let name := name.map fun ch => if ch = '-' then ' ' else ch
  trimSpace name

/-- `levenshteinDistance` (name.go:159).  The Go code fills the standard
dynamic-programming matrix for edit distance; this is the recurrence that
matrix computes (matrix cell `(i,j)` = distance of the length-`i` suffix
against the length-`j` suffix). -/
def levenshteinDistance : GoStr → GoStr → Nat
  | [], ys => ys.length
  | x :: xs, [] => (x :: xs).length
  | x :: xs, y :: ys =>
      min (min (levenshteinDistance xs (y :: ys) + 1)
               (levenshteinDistance (x :: xs) ys + 1))
          (levenshteinDistance xs ys + (if x = y then 0 else 1))
termination_by s1 s2 => s1.length + s2.length
decreasing_by all_goals simp only [List.length_cons]; omega

/-- `levenshteinSimilarity` (name.go:147): `1 - distance/max(len)`, with the
empty-against-empty case defined as `1`. -/
def levenshteinSimilarity (s1 s2 : GoStr) : ℚ :=
  let maxLen : ℚ := ((max s1.length s2.length : Nat) : ℚ)
  if maxLen = 0 then 1
  else 1 - (levenshteinDistance s1 s2 : ℚ) / maxLen

/-- Match-window radius of `jaroSimilarity` (name.go:231):
`max(len1,len2)/2 - 1`, clamped at zero (Go clamps the negative case;
`Nat` subtraction does the same here). -/
def jaroMatchDistance (l1 l2 : Nat) : Nat := max l1 l2 / 2 - 1

/-- The inner loop of the Jaro match search (name.go:243-256): for position
`i` of `s1`, the first index `j` of `s2` inside the window
`[i-d, min(i+d+1, len2))` that is not yet matched (`M` is the list of
already-matched `s2` indices, i.e. the `s2Matches` array) and carries the
same character as `s1[i]`. -/
def jaroPick (s1 s2 : GoStr) (d : Nat) (M : List Nat) (i : Nat) : Option Nat :=
  let start := i - d
  let stop := min (i + d + 1) s2.length
  (List.range' start (stop - start)).find?
    fun j => !(M.contains j) && (s2.getD j default == s1.getD i default)

/-- The Jaro match-finding pass (name.go:243-256): indices `i` of `s1` in
increasing order, each greedily matched by `jaroPick`; the accumulated list
holds the matched pairs `(i, j)` in order of `i`. -/
def jaroPairs (s1 s2 : GoStr) (d : Nat) : List (Nat × Nat) :=
  (List.range s1.length).foldl
    (fun acc i =>
      match jaroPick s1 s2 d (acc.map Prod.snd) i with
      | some j => acc ++ [(i, j)]
      | none => acc) []

/-- Matched characters of `s1`, in increasing `s1`-index order
(the `s1Matches` scan of the transposition loop, name.go:263-275). -/
def jaroLeftChars (s1 : GoStr) (pairs : List (Nat × Nat)) : GoStr :=
  pairs.map fun p => s1.getD p.1 default

/-- Matched characters of `s2`, in increasing `s2`-index order
(the `k` scan over `s2Matches` in the transposition loop visits the matched
`s2` positions in increasing order). -/
def jaroRightChars (s2 : GoStr) (pairs : List (Nat × Nat)) : GoStr :=
  ((pairs.map Prod.snd).mergeSort (fun a b => a ≤ b)).map
    fun j => s2.getD j default

/-- Transposition count (name.go:263-275): positions where the `k`-th matched
character of `s1` differs from the `k`-th matched character of `s2`. -/
def jaroTranspositions (s1 s2 : GoStr) (pairs : List (Nat × Nat)) : Nat :=
  (((jaroLeftChars s1 pairs).zip (jaroRightChars s2 pairs)).filter
    fun p => p.1 ≠ p.2).length

/-- `jaroSimilarity` (name.go:218). `matches - transpositions/2` is Go `int`
arithmetic (integer division, then conversion to float), modelled in `ℤ`. -/
def jaroSimilarity (s1 s2 : GoStr) : ℚ :=
  if s1 = s2 then 1
  else if s1.length = 0 ∨ s2.length = 0 then 0
  else
    let d := jaroMatchDistance s1.length s2.length
    let pairs := jaroPairs s1 s2 d
    let m := pairs.length
    if m = 0 then 0
    else
      let t := jaroTranspositions s1 s2 pairs
      ((m : ℚ) / s1.length + (m : ℚ) / s2.length
        + ((((m : ℤ) - (t : ℤ) / 2) : ℤ) : ℚ) / m) / 3

/-- Length of the common prefix of two strings (full length; the caller
clamps it at 4 as the Go loop bound does). -/
def commonStart : GoStr → GoStr → Nat
  | x :: xs, y :: ys => if x = y then commonStart xs ys + 1 else 0
  | _, _ => 0

/-- `jaroWinklerSimilarity` (name.go:200): Jaro plus a prefix bonus of up to
4 shared leading characters. -/
def jaroWinklerSimilarity (s1 s2 : GoStr) : ℚ :=
  let j := jaroSimilarity s1 s2
  let p := min (commonStart s1 s2) 4
  j + (p : ℚ) * (1 / 10) * (1 - j)

/-- `getNgrams` (name.go:314): the set of length-`n` substrings (the Go map
is a set; `dedup` keeps one copy of each).  A string shorter than `n` yields
the singleton of the whole string. -/
def getNgrams (s : GoStr) (n : Nat) : List GoStr :=
  if s.length < n then [s]
  else ((List.range (s.length - n + 1)).map fun i => (s.drop i).take n).dedup

/-- `ngramSimilarity` (name.go:284): Jaccard similarity of the n-gram sets.
`total` is Go `int` arithmetic, modelled in `ℤ`. -/
def ngramSimilarity (s1 s2 : GoStr) (n : Nat) : ℚ :=
  let g1 := getNgrams s1 n
  let g2 := getNgrams s2 n
  if g1.length = 0 ∧ g2.length = 0 then 1
  else if g1.length = 0 ∨ g2.length = 0 then 0
  else
    let common := (g1.filter fun g => g2.contains g).length
    let total : ℤ := (g1.length : ℤ) + (g2.length : ℤ) - (common : ℤ)
    if total = 0 then 0 else (common : ℚ) / ((total : ℤ) : ℚ)

/-- Go `math.Round`: round half away from zero. -/
def roundHalfAway (q : ℚ) : ℚ :=
  if 0 ≤ q then ((⌊q + 1 / 2⌋ : ℤ) : ℚ) else -((⌊-q + 1 / 2⌋ : ℤ) : ℚ)

/-- `CalculateNormalizedSimilarity` (name.go:107): weighted blend
`0.5*Levenshtein + 0.3*JaroWinkler + 0.2*Bigram`, scaled to 0-100 and
rounded to one decimal, with a short-circuit for equal inputs. -/
def calculateNormalizedSimilarity (norm1 norm2 : GoStr) : ℚ :=
  if norm1 = norm2 then 100
  else
    let lev := levenshteinSimilarity norm1 norm2
    let jaro := jaroWinklerSimilarity norm1 norm2
    let ngram := ngramSimilarity norm1 norm2 2
    let similarity := (lev * (1 / 2) + jaro * (3 / 10) + ngram * (1 / 5)) * 100
    roundHalfAway (similarity * 10) / 10

/-- `CalculateNameSimilarity` (name.go:124): the public scorer on raw
filenames. -/
def calculateNameSimilarity (name1 name2 : GoStr) : ℚ :=
  calculateNormalizedSimilarity (normalizeFilename name1) (normalizeFilename name2)

/-! ## Scanner data model (src/internal/scanner/scanner.go) -/

/-- `scanner.ArchiveFile`.  `time.Time` is modelled as an integer instant
(`modTime`, used for `Before` comparisons) together with its two textual
renderings used by the code: `modTimeString` (Go `ModTime.String()`, hashed
by the cache fingerprint) and `modTimeRFC3339` (`ModTime.Format(time.RFC3339)`,
the visual-hash cache key). -/
structure ArchiveFile where
  name : GoStr
  path : GoStr
  size : Int
  ftype : GoStr
  modTime : Int
  modTimeString : GoStr
  modTimeRFC3339 : GoStr
  fileCount : Int
deriving DecidableEq, Inhabited, Repr

/-- `similarity.SimilarPair` (name.go:13). -/
structure SimilarPair where
  file1 : ArchiveFile
  file2 : ArchiveFile
  similarity : ℚ
deriving DecidableEq, Inhabited, Repr

/-- `similarity.NormalizedFile` (name.go:20). -/
structure NormalizedFile where
  file : ArchiveFile
  normalizedName : GoStr
deriving DecidableEq, Inhabited, Repr

/-- The pre-normalization pass of `FindSimilarNames` (name.go:32-38). -/
def normalizeAll (files : List ArchiveFile) : List NormalizedFile :=
  files.map fun f => ⟨f, normalizeFilename f.name⟩

/-- Body of the inner comparison loop of `FindSimilarNames` (name.go:55-83):
skip equal sizes, apply the length-ratio gate, score, and keep the pair when
the score reaches the threshold. -/
def similarCheck (threshold : Int) (f1 f2 : NormalizedFile) : Option SimilarPair :=
  if f1.file.size = f2.file.size then none
  else
    let len1 := f1.normalizedName.length
    let len2 := f2.normalizedName.length
    if 0 < len1 ∧ 0 < len2 ∧
        ((len1 : ℚ) / (len2 : ℚ) < 2 / 5 ∨ (len1 : ℚ) / (len2 : ℚ) > 5 / 2) then
      none
    else
      let s := calculateNormalizedSimilarity f1.normalizedName f2.normalizedName
      if (threshold : ℚ) ≤ s then some ⟨f1.file, f2.file, s⟩ else none

/-- Pairs emitted for one outer index `i` (inner loop `j = i+1 .. n-1`,
in order). -/
def rowPairs (nf : List NormalizedFile) (threshold : Int) (i : Nat) : List SimilarPair :=
  (List.range' (i + 1) (nf.length - (i + 1))).filterMap
    fun j => similarCheck threshold (nf.getD i default) (nf.getD j default)

/-- The ordered message sequence of worker `w` in a pool of `numWorkers`
(name.go:46-86): outer indices `w, w+numWorkers, ...` in increasing order,
each with its full inner loop. -/
def workerPairs (nf : List NormalizedFile) (threshold : Int)
    (numWorkers w : Nat) : List SimilarPair :=
  ((List.range nf.length).filter fun i => i % numWorkers = w).flatMap
    (rowPairs nf threshold)

/-- Channel collection (name.go:88-101): the collector receives one message
at a time from whichever worker the scheduler lets run; `sched` names the
queue serviced at each step (steps naming an empty queue do nothing), and
once `sched` is exhausted the remaining messages drain in queue order.
Every emitted message is eventually received (the Go code closes the channel
only after `wg.Wait()` and then drains it), so every run of the collector is
`mergeSchedule queues sched` for some `sched`. -/
def mergeSchedule (queues : List (List α)) (sched : List Nat) : List α :=
  match sched with
  | [] => queues.flatten
  | k :: rest =>
    match queues.getD k [] with
    | [] => mergeSchedule queues rest
    | x :: xs => x :: mergeSchedule (queues.set k xs) rest

/-- `FindSimilarNames` (name.go:26), as a function of the file list, the
threshold, the pool size and the collection schedule. -/
def findSimilarNames (files : List ArchiveFile) (threshold : Int)
    (numWorkers : Nat) (sched : List Nat) : List SimilarPair :=
  if files.length < 2 then []
  else
    let nf := normalizeAll files
    mergeSchedule ((List.range numWorkers).map (workerPairs nf threshold numWorkers)) sched

/-- The sequential (single-worker, in-order) pair list: outer index
ascending, inner index ascending. -/
def candidatePairs (files : List ArchiveFile) (threshold : Int) : List SimilarPair :=
  (List.range (normalizeAll files).length).flatMap
    (rowPairs (normalizeAll files) threshold)

/-! ## Multi-volume detection and cleanup (src/cmd/finder/main.go) -/

/-- Go `strings.Contains`. -/
def goContains (s sub : GoStr) : Bool :=
  (List.range (s.length + 1)).any fun i => sub.isPrefixOf (s.drop i)

/-- Go `strings.HasSuffix`. -/
def goHasSuffix (s suf : GoStr) : Bool := suf.isSuffixOf s

/-- Go `filepath.Ext` on a bare file name (no directory separators): the
suffix starting at the final dot, empty when there is no dot. -/
def filepathExt (s : GoStr) : GoStr :=
  match lastIndexOf s '.' with
  | some i => s.drop i
  | none => []

def isDigitChar (c : Char) : Bool := '0' ≤ c ∧ c ≤ '9'

/-- `isMultiVolumePart` (src/cmd/finder/main.go:462): the pattern test used
by the cleanup path — name contains `.part` or `.z0`, or has a three-digit
purely numeric extension. -/
def isMultiVolumePart (filename : GoStr) : Bool :=
  let f := filename.map goToLower
  if goContains f (gs ".part") || goContains f (gs ".z0") then true
  else
    let ext := filepathExt f
    ext.length = 4 && (ext.getD 0 default == '.') && (ext.drop 1).all isDigitChar

/-- Result triple of the `DetectPart` contract (spec §4.3). -/
structure PartInfo where
  isPart : Bool
  baseName : GoStr
  partToken : GoStr
deriving DecidableEq, Inhabited, Repr

/-- Separator characters of the `part`-like pattern family. -/
def isPartSep (c : Char) : Bool := c = '.' ∨ c = '_' ∨ c = '-'

/-- Indices `k` (of a lower-cased name `f`) at which a separator-delimited
`part` token starts: `f[k-1]` is a separator, `f[k..k+4)` is `part`, and at
least one digit follows. -/
def partTokenStarts (f : GoStr) : List Nat :=
  (List.range f.length).filter fun k =>
    decide (1 ≤ k) && isPartSep (f.getD (k - 1) default) &&
      (gs "part").isPrefixOf (f.drop k) &&
      !((f.drop (k + 4)).takeWhile isDigitChar).isEmpty

/-- Known archive extensions stripped from the base of a numeric-extension
part, so that `archive.zip.001` and `archive.zip.002` share one base. -/
def knownArchiveExts : List GoStr :=
  [gs ".zip", gs ".rar", gs ".7z", gs ".tar", gs ".gz"]

def stripKnownArchiveExt (s : GoStr) : GoStr :=
  match knownArchiveExts.find? (fun e => goHasSuffix s e) with
  | some e => s.take (s.length - e.length)
  | none => s

/-- Modelled from the spec: `ArchiveFile.IsMultiVolumePart` — the
`DetectPart(filename) -> (isPart, baseName, partToken)` contract of spec
§4.3 — is called at src/cmd/finder/main.go:888 but its definition is not
among the provided sources.  Following the spec's words: family (1) locates
the last occurrence of a `part`-like separator and reads the digits
immediately following it; family (2) matches a fully numeric file extension,
stripping an immediately preceding known archive extension
(`.zip/.rar/.7z/.tar/.gz`) from the computed base.  Detection is performed
on the lower-cased name. -/
def detectPart (filename : GoStr) : PartInfo :=
  let f := filename.map goToLower
  match (partTokenStarts f).getLast? with
  | some k => ⟨true, f.take (k - 1), (f.drop (k + 4)).takeWhile isDigitChar⟩
  | none =>
    let ext := filepathExt f
    if 2 ≤ ext.length ∧ (ext.drop 1).all isDigitChar then
      ⟨true, stripKnownArchiveExt (f.take (f.length - ext.length)), ext.drop 1⟩
    else ⟨false, f, []⟩

/-- The same-set predicate of `analyzeSameSizeDifferentName`
(src/cmd/finder/main.go:888-896): both detected as parts, equal bases,
different part tokens. -/
def sameMultiVolumeSet (name1 name2 : GoStr) : Bool :=
  let p1 := detectPart name1
  let p2 := detectPart name2
  p1.isPart && p2.isPart && p1.baseName == p2.baseName && p1.partToken != p2.partToken

/-- The deletion-candidate selection of `handleCleanup`
(src/cmd/finder/main.go:981-1070), restricted to its pure decision: which
file, if any, the automatic (non-interactive) cleanup path proposes to
delete.  `none` models both the multi-volume guard and "no clear candidate".
File paths are assumed non-empty (scanner paths always are), so the Go
`toDelete.Path == ""` sentinel is modelled by `Option`. -/
def cleanupCandidate (deleteMode : GoStr) (f1 f2 : ArchiveFile) : Option ArchiveFile :=
  if isMultiVolumePart f1.name || isMultiVolumePart f2.name then none
  else if deleteMode == gs "oldest" then
    if f1.modTime < f2.modTime then some f1
    else if f2.modTime < f1.modTime then some f2
    else none
  else if deleteMode == gs "contents" then
    if 0 < f1.fileCount ∧ 0 < f2.fileCount ∧ f1.fileCount < f2.fileCount then some f1
    else if 0 < f1.fileCount ∧ 0 < f2.fileCount ∧ f2.fileCount < f1.fileCount then some f2
    else if f1.size < f2.size then some f1
    else if f2.size < f1.size then some f2
    else none
  else none

/-! ## STL parser (src/internal/stl/parser.go)

The parser is modelled on byte lists (`List Nat`, each entry `< 256` in real
inputs).  `STLInfo.Bounds` — the `float32` bounding box — is omitted: it is
pure floating-point accumulation, is not mentioned by any verified claim, and
does not influence the triangle/vertex counts or the error behaviour. -/

/-- `stl.STLInfo` (parser.go:76), without the float bounding box. -/
structure STLInfo where
  triangleCount : Nat
  vertexCount : Nat
  isBinary : Bool
deriving DecidableEq, Inhabited, Repr

/-- Parse errors of `parseBinarySTL` (parser.go:117 and parser.go:126; the Go
code formats them as strings, the numeric payload is kept here). -/
inductive STLError where
  | tooSmall : STLError
  | lengthMismatch (expected actual : Nat) : STLError
deriving DecidableEq, Repr

/-- `binary.LittleEndian.Uint32(data[off:off+4])`, missing bytes read as 0
(the callers only read inside the checked bounds). -/
def readU32LE (data : List Nat) (off : Nat) : Nat :=
  data.getD off 0 + 256 * data.getD (off + 1) 0 + 65536 * data.getD (off + 2) 0
    + 16777216 * data.getD (off + 3) 0

/-- The bytes of the ASCII token `solid`. -/
def solidToken : List Nat := [115, 111, 108, 105, 100]

/-- `isBinarySTL` (parser.go:100): length at least 84 and no `solid` prefix. -/
def isBinarySTL (data : List Nat) : Bool :=
  decide (84 ≤ data.length) && !(solidToken.isPrefixOf data)

/-- `parseBinarySTL` (parser.go:115), restricted to the returned counts: the
declared triangle count is the little-endian word at bytes 80-83; a byte
length below `84 + 50*count` is an error; otherwise the info record is
returned (the triangle loop only feeds the omitted bounding box). -/
def parseBinarySTL (data : List Nat) : Except STLError STLInfo :=
  if data.length < 84 then .error .tooSmall
  else
    let triangleCount := readU32LE data 80
    let expectedSize := 84 + triangleCount * 50
    if data.length < expectedSize then
      .error (.lengthMismatch expectedSize data.length)
    else .ok ⟨triangleCount, triangleCount * 3, true⟩

/-- ASCII whitespace byte set of Go `bytes.TrimSpace`. -/
def isWsByte (b : Nat) : Bool :=
  b = 32 ∨ b = 9 ∨ b = 10 ∨ b = 13 ∨ b = 11 ∨ b = 12

/-- Go `bytes.TrimSpace` (ASCII subset). -/
def trimSpaceBytes (l : List Nat) : List Nat :=
  ((l.dropWhile isWsByte).reverse.dropWhile isWsByte).reverse

/-- Go `bytes.Split(data, []byte("\n"))`. -/
def splitOnByte (b : Nat) (data : List Nat) : List (List Nat) :=
  data.foldr
    (fun x acc =>
      match acc with
      | cur :: rest => if x = b then [] :: cur :: rest else (x :: cur) :: rest
      | [] => [[x]])
    [[]]

/-- Bytes of `facet`. -/
def facetToken : List Nat := [102, 97, 99, 101, 116]

/-- Bytes of `vertex`. -/
def vertexToken : List Nat := [118, 101, 114, 116, 101, 120]

/-- `parseASCIISTL` (parser.go:173), restricted to the returned counts:
triangles = lines whose trimmed form starts with `facet`, vertices = lines
whose trimmed form starts with `vertex` (the per-vertex coordinate scan only
feeds the omitted bounding box).  It never fails. -/
def parseASCIISTL (data : List Nat) : Except STLError STLInfo :=
  let lines := splitOnByte 10 data
  .ok ⟨(lines.filter fun l => facetToken.isPrefixOf (trimSpaceBytes l)).length,
       (lines.filter fun l => vertexToken.isPrefixOf (trimSpaceBytes l)).length,
       false⟩

deriving instance DecidableEq for Except

/-- `parseSTL` (parser.go:91): binary/ASCII dispatch. -/
def parseSTL (data : List Nat) : Except STLError STLInfo :=
  if isBinarySTL data then parseBinarySTL data else parseASCIISTL data

/-! ## Preview selection (src/internal/config/config.go) -/

/-- `archive.PreviewInfo` (config.go:248). -/
structure PreviewInfo where
  path : GoStr
  size : Int
deriving DecidableEq, Inhabited, Repr

/-- `isImageFile` (config.go:640): jpg/jpeg/png/webp by extension, with
entries under `__MACOSX` or `@eaDir` rejected. -/
def isImageFile (filename : GoStr) : Bool :=
  let lower := filename.map goToLower
  if goContains lower (gs "__macosx") || goContains lower (gs "@eadir") then false
  else
    let e := filepathExt lower
    e == gs ".jpg" || e == gs ".jpeg" || e == gs ".png" || e == gs ".webp"

/-- `isVideoFile` (config.go:649): mp4/webm/mkv/mov/avi by extension, with
entries under `__MACOSX` or `@eaDir` rejected. -/
def isVideoFile (filename : GoStr) : Bool :=
  let lower := filename.map goToLower
  if goContains lower (gs "__macosx") || goContains lower (gs "@eadir") then false
  else
    let e := filepathExt lower
    e == gs ".mp4" || e == gs ".webm" || e == gs ".mkv" || e == gs ".mov" || e == gs ".avi"

/-- `isModelFile` (config.go:431): `.stl`/`.obj` by suffix; rejects only
`__MACOSX` entries (not `@eaDir`). -/
def isModelFile (filename : GoStr) : Bool :=
  let lower := filename.map goToLower
  if goContains lower (gs "__macosx") then false
  else goHasSuffix lower (gs ".stl") || goHasSuffix lower (gs ".obj")

/-- `hasKeyword` (config.go:443). -/
def hasKeyword (filename : GoStr) : Bool :=
  let lower := filename.map goToLower
  [gs "full", gs "whole", gs "body", gs "complete", gs "merged", gs "single"].any
    fun kw => goContains lower kw

/-- The eligibility filter of `ListPreviewsInArchive` (config.go:291-296). -/
def previewEligible (p : GoStr) : Bool :=
  isImageFile p || isModelFile p || isVideoFile p

/-- One update step of a `largest file matching pred` loop of
`FindPreviewPathInArchive` (config.go:352-359 and analogues): the running
best (path, size) is replaced when the entry matches and is strictly
larger. -/
def largestStep (pred : GoStr → Bool) (acc : GoStr × Int) (f : PreviewInfo) : GoStr × Int :=
  if pred f.path && decide (acc.2 < f.size) then (f.path, f.size) else acc

/-- One `largest file matching pred` loop of `FindPreviewPathInArchive`:
running best path and best size, starting from the empty path and size 0;
the Go code signals "none found" by the best path still being the empty
string. -/
def largestScan (pred : GoStr → Bool) (previews : List PreviewInfo) : GoStr × Int :=
  previews.foldl (largestStep pred) ([], 0)

/-- `FindPreviewPathInArchive` (config.go:340), as a function of the entry
list of the archive (`ListPreviewsInArchive` output before its eligibility
filter, which is applied here); both `fmt.Errorf` failures collapse to
`none`. -/
def findPreviewPathInArchive (entries : List PreviewInfo) : Option GoStr :=
  let previews := entries.filter fun f => previewEligible f.path
  if previews.length = 0 then none
  else
    let img := largestScan isImageFile previews
    if img.1 ≠ [] then some img.1
    else
      let vid := largestScan isVideoFile previews
      if vid.1 ≠ [] then some vid.1
      else
        match previews.find? (fun f => isModelFile f.path && hasKeyword f.path) with
        | some f => some f.path
        | none =>
          let mdl := largestScan isModelFile previews
          if mdl.1 ≠ [] then some mdl.1 else none

/-! ## Visual clustering (src/internal/config/config.go, package visual) -/

/-- Number of set bits. -/
def popCount (n : Nat) : Nat :=
  if n = 0 then 0 else n % 2 + popCount (n / 2)
decreasing_by exact Nat.div_lt_self (Nat.pos_of_ne_zero (by assumption)) (by omega)

/-- `archive.CalculateHammingDistance` (external `goimagehash` distance):
number of differing bits of the two 64-bit perceptual hashes. -/
def hammingDistance (h1 h2 : Nat) : Nat := popCount (Nat.xor h1 h2)

/-- `visual.FileInfo` (config.go:225). -/
structure VFileInfo where
  name : GoStr
  path : GoStr
  size : Int
  ftype : GoStr
  modTime : GoStr
  pHash : Nat
deriving DecidableEq, Inhabited, Repr

/-- `visual.SimilarityGroup` (config.go:220). -/
structure VisualGroup where
  baseName : GoStr
  files : List VFileInfo
deriving DecidableEq, Inhabited, Repr

/-- The visual-hash cache is modelled as a pure lookup keyed by
`(path, RFC3339 modification tag)`, exactly the key format used by
`FindVisualDuplicates` (config.go:158-160). -/
def getHash (cache : GoStr → GoStr → Option Nat) (f : ArchiveFile) : Option Nat :=
  cache f.path f.modTimeRFC3339

/-- Hash-collection pass of `FindVisualDuplicates` (config.go:150-163):
keep, in input order, the files whose hash is cached. -/
def collectHashes (files : List ArchiveFile)
    (cache : GoStr → GoStr → Option Nat) : List (ArchiveFile × Nat) :=
  files.filterMap fun f => (getHash cache f).map fun h => (f, h)

/-- Inner absorption loop (config.go:183-193): scan the later files in
order; an unvisited file at Hamming distance at most 8 from the seed hash is
absorbed and immediately marked visited. -/
def absorbScan (seedHash : Nat) (rest : List (ArchiveFile × Nat))
    (visited : List GoStr) : List (ArchiveFile × Nat) × List GoStr :=
  rest.foldl
    (fun acc fh =>
      if acc.2.contains fh.1.path then acc
      else if hammingDistance seedHash fh.2 ≤ 8 then
        (acc.1 ++ [fh], acc.2 ++ [fh.1.path])
      else acc)
    ([], visited)

/-- Reporting conversion (config.go:196-207): the group record, re-reading
each member's hash from the cache (`h, _ :=` reads 0 on a miss). -/
def mkVisualGroup (cache : GoStr → GoStr → Option Nat)
    (group : List (ArchiveFile × Nat)) : VisualGroup :=
  ⟨gs "Visual Match: " ++ (group.headD default).1.name,
   group.map fun fh =>
     ⟨fh.1.name, fh.1.path, fh.1.size, fh.1.ftype, fh.1.modTimeRFC3339,
      (getHash cache fh.1).getD 0⟩⟩

/-- Outer greedy clustering loop (config.go:172-209): each unvisited file in
input order seeds a cluster, absorbs later unvisited files within Hamming
distance 8 of the seed, and the cluster is reported only when it has more
than one member. -/
def clusterScan (cache : GoStr → GoStr → Option Nat) :
    List (ArchiveFile × Nat) → List GoStr → List VisualGroup
  | [], _ => []
  | fh :: rest, visited =>
    if visited.contains fh.1.path then clusterScan cache rest visited
    else
      let scan := absorbScan fh.2 rest (visited ++ [fh.1.path])
      let group := fh :: scan.1
      if 1 < group.length then
        mkVisualGroup cache group :: clusterScan cache rest scan.2
      else clusterScan cache rest scan.2

/-- `FindVisualDuplicates` (config.go:144): the fixed Hamming bound is 8;
the `threshold` argument is accepted and never read (as in the Go code,
where `threshold` does not occur in the function body after the signature). -/
def findVisualDuplicates (files : List ArchiveFile)
    (cache : GoStr → GoStr → Option Nat) (threshold : Int) : List VisualGroup :=
  if files.length < 2 then []
  else
    let hashes := collectHashes files cache
    if hashes.length < 2 then []
    else clusterScan cache hashes []

/-! ## Scan fingerprint (package db, `Cache.CalculateFingerprint`)

`crypto/sha256` is embedded as a full FIPS 180-4 SHA-256 over byte lists,
so that fingerprint equality and inequality are both meaningful in the
model.  Strings are hashed through their bytes; `strBytes` is UTF-8
restricted to ASCII (all concrete inputs used here are ASCII). -/

/-- Truncation to a 32-bit word. -/
def m32 (n : Nat) : Nat := n % 4294967296

/-- 32-bit right rotation. -/
def rotr32 (x n : Nat) : Nat := m32 (Nat.lor (x >>> n) (x <<< (32 - n)))

/-- SHA-256 small sigma 0. -/
def ssig0 (x : Nat) : Nat := Nat.xor (Nat.xor (rotr32 x 7) (rotr32 x 18)) (x >>> 3)

/-- SHA-256 small sigma 1. -/
def ssig1 (x : Nat) : Nat := Nat.xor (Nat.xor (rotr32 x 17) (rotr32 x 19)) (x >>> 10)

/-- SHA-256 big sigma 0. -/
def bsig0 (x : Nat) : Nat := Nat.xor (Nat.xor (rotr32 x 2) (rotr32 x 13)) (rotr32 x 22)

/-- SHA-256 big sigma 1. -/
def bsig1 (x : Nat) : Nat := Nat.xor (Nat.xor (rotr32 x 6) (rotr32 x 11)) (rotr32 x 25)

/-- SHA-256 choice function. -/
def chFn (e f g : Nat) : Nat := Nat.xor (Nat.land e f) (Nat.land (Nat.xor e 4294967295) g)

/-- SHA-256 majority function. -/
def majFn (a b c : Nat) : Nat := Nat.xor (Nat.xor (Nat.land a b) (Nat.land a c)) (Nat.land b c)

/-- SHA-256 round constants (decimal). -/
def sha256K : List Nat :=
  [1116352408, 1899447441, 3049323471, 3921009573, 961987163, 1508970993,
   2453635748, 2870763221, 3624381080, 310598401, 607225278, 1426881987,
   1925078388, 2162078206, 2614888103, 3248222580, 3835390401, 4022224774,
   264347078, 604807628, 770255983, 1249150122, 1555081692, 1996064986,
   2554220882, 2821834349, 2952996808, 3210313671, 3336571891, 3584528711,
   113926993, 338241895, 666307205, 773529912, 1294757372, 1396182291,
   1695183700, 1986661051, 2177026350, 2456956037, 2730485921, 2820302411,
   3259730800, 3345764771, 3516065817, 3600352804, 4094571909, 275423344,
   430227734, 506948616, 659060556, 883997877, 958139571, 1322822218,
   1537002063, 1747873779, 1955562222, 2024104815, 2227730452, 2361852424,
   2428436474, 2756734187, 3204031479, 3329325298]

/-- SHA-256 initial hash value (decimal). -/
def sha256H0 : List Nat :=
  [1779033703, 3144134277, 1013904242, 2773480762,
   1359893119, 2600822924, 528734635, 1541459225]

/-- Big-endian bytes of a 64-bit value. -/
def toBE64 (n : Nat) : List Nat :=
  [n / 2 ^ 56 % 256, n / 2 ^ 48 % 256, n / 2 ^ 40 % 256, n / 2 ^ 32 % 256,
   n / 2 ^ 24 % 256, n / 2 ^ 16 % 256, n / 2 ^ 8 % 256, n % 256]

/-- Big-endian bytes of a 32-bit word. -/
def toBE32 (n : Nat) : List Nat :=
  [n / 2 ^ 24 % 256, n / 2 ^ 16 % 256, n / 2 ^ 8 % 256, n % 256]

/-- SHA-256 padding: `0x80`, zeros to 56 mod 64, then the bit length. -/
def sha256Pad (msg : List Nat) : List Nat :=
  let L := msg.length
  let k := (64 + 56 - (L + 1) % 64) % 64
  msg ++ 128 :: List.replicate k 0 ++ toBE64 (8 * L)

/-- Split into 64-byte blocks. -/
def chunk64 (l : List Nat) : List (List Nat) :=
  if l.isEmpty then [] else l.take 64 :: chunk64 (l.drop 64)
termination_by l.length
decreasing_by
  have hne : l ≠ [] := by simpa [List.isEmpty_iff] using (by assumption : ¬l.isEmpty = true)
  have hp : 0 < l.length := List.length_pos.mpr hne
  simp only [List.length_drop]
  omega

/-- Big-endian 32-bit words of one 64-byte block. -/
def blockWords (block : List Nat) : List Nat :=
  (List.range 16).map fun i =>
    block.getD (4 * i) 0 * 16777216 + block.getD (4 * i + 1) 0 * 65536
      + block.getD (4 * i + 2) 0 * 256 + block.getD (4 * i + 3) 0

/-- Message-schedule extension to 64 words. -/
def extendWords (w : List Nat) : List Nat :=
  (List.range' 16 48).foldl
    (fun acc i =>
      acc ++ [m32 (acc.getD (i - 16) 0 + ssig0 (acc.getD (i - 15) 0)
                    + acc.getD (i - 7) 0 + ssig1 (acc.getD (i - 2) 0))])
    w

/-- One compression round; the state is `[a,b,c,d,e,f,g,h]`. -/
def sha256Round (st : List Nat) (kw : Nat × Nat) : List Nat :=
  let a := st.getD 0 0
  let b := st.getD 1 0
  let c := st.getD 2 0
  let d := st.getD 3 0
  let e := st.getD 4 0
  let f := st.getD 5 0
  let g := st.getD 6 0
  let h := st.getD 7 0
  let t1 := m32 (h + bsig1 e + chFn e f g + kw.1 + kw.2)
  let t2 := m32 (bsig0 a + majFn a b c)
  [m32 (t1 + t2), a, b, c, m32 (d + t1), e, f, g]

/-- Compression of one block into the running hash. -/
def sha256Compress (H : List Nat) (block : List Nat) : List Nat :=
  let w := extendWords (blockWords block)
  let st := (sha256K.zip w).foldl sha256Round H
  (H.zip st).map fun p => m32 (p.1 + p.2)

/-- SHA-256 of a byte list. -/
def sha256 (msg : List Nat) : List Nat :=
  ((chunk64 (sha256Pad msg)).foldl sha256Compress sha256H0).flatMap toBE32

/-- Lower-case hex rendering (Go `fmt.Sprintf("%x", ...)`). -/
def hexOfBytes (bs : List Nat) : GoStr :=
  bs.flatMap fun b => [(gs "0123456789abcdef").getD (b / 16 % 16) default,
                    (gs "0123456789abcdef").getD (b % 16) default]

/-- Bytes of a string (UTF-8, restricted to ASCII). -/
def strBytes (s : GoStr) : List Nat := s.map Char.toNat

/-- Go string comparison (`<`), lexicographic. -/
def goStrLt : GoStr → GoStr → Bool
  | [], [] => false
  | [], _ :: _ => true
  | _ :: _, [] => false
  | a :: as, b :: bs => if a < b then true else if b < a then false else goStrLt as bs

/-- The path comparison of `Cache.CalculateFingerprint`, as a total preorder
usable by a sorting routine: `f` before `g` iff `¬(g.Path < f.Path)`. -/
def pathLe (f g : ArchiveFile) : Bool := !goStrLt g.path f.path

/-- `Cache.CalculateFingerprint` (package db): sort the entries by path
(`sort.Slice` with `Path <`; modelled by a stable merge sort, one of the
orders the unstable Go sort can produce, and the unique one when paths are
distinct), then hash the concatenated `(path, ModTime.String())` pairs and
render the digest in hex. -/
def calculateFingerprint (files : List ArchiveFile) : GoStr :=
  let sorted := files.mergeSort pathLe
  hexOfBytes (sha256 ((sorted.map fun f => strBytes f.path ++ strBytes f.modTimeString).flatten))

/-! ## Proof-support definitions

Recursive reformulations of the loops above, used by the symmetry analysis
of the Jaro match search; each is related to the source-shaped definition by
a proved lemma below. -/

/-- Recursive form of the Jaro match pass: process the indices `is` of `s1`
in order, with `M` the already-matched `s2` indices. -/
def jaroScan (s1 s2 : GoStr) (d : Nat) : List Nat → List Nat → List (Nat × Nat)
  | [], _ => []
  | i :: is, M =>
    match jaroPick s1 s2 d M i with
    | some j => (i, j) :: jaroScan s1 s2 d is (M ++ [j])
    | none => jaroScan s1 s2 d is M

/-- The positions of character `c` in `s2` that are not in `M`, ascending. -/
def freePositions (s2 : GoStr) (c : Char) (M : List Nat) : List Nat :=
  (List.range s2.length).filter fun j =>
    (s2.getD j default == c) && !(M.contains j)

/-- Per-class greedy matching: match each left position `a` (ascending) to
the least free right position within distance `d`. -/
def greedyPickList (d : Nat) : List Nat → List Nat → List (Nat × Nat)
  | [], _ => []
  | a :: as, B =>
    match B.find? (fun b => decide (a ≤ b + d) && decide (b ≤ a + d)) with
    | some b => (a, b) :: greedyPickList d as (B.erase b)
    | none => greedyPickList d as B

/-- The symmetric two-pointer sweep matching left positions `A` to right
positions `B` within window radius `d`. -/
def twoPointer (d : Nat) : List Nat → List Nat → List (Nat × Nat)
  | a :: as, b :: bs =>
    if b + d < a then twoPointer d (a :: as) bs
    else if a + d < b then twoPointer d as (b :: bs)
    else (a, b) :: twoPointer d as bs
  | _, _ => []
termination_by A B => A.length + B.length

/-- The distinct characters of `s1`, in order of first occurrence (a class
enumeration for the per-character decomposition of the Jaro match). -/
def classChars (s1 : GoStr) : List Char := s1.dedup

/-- The spec's description of the scorer (spec §4.2): the fixed weighted sum
`0.5*Levenshtein + 0.3*JaroWinkler + 0.2*Bigram` of the two (already
normalized) names, scaled to 0-100 and rounded to one decimal — with no
equal-input short-circuit. -/
def specScoreFormula (n1 n2 : GoStr) : ℚ :=
  roundHalfAway ((levenshteinSimilarity n1 n2 * (1 / 2)
    + jaroWinklerSimilarity n1 n2 * (3 / 10)
    + ngramSimilarity n1 n2 2 * (1 / 5)) * 100 * 10) / 10

/-! # Theorems -/

/-! ## C1 — name normalization and the Report_v2/Report_v3 score -/

set_option maxRecDepth 100000 in
/-- C1 counterexample: the normalization implemented in
src/internal/similarity/name.go does not strip version tokens —
`normalizeFilename "Report_v2"` is `"report v2"`, not `"report"` — and
`Score("Report_v2","Report_v3")` is 88.7, which does not exceed 90. -/
theorem c1_counterexample :
    normalizeFilename (gs "Report_v2") ≠ gs "report" ∧
    calculateNameSimilarity (gs "Report_v2") (gs "Report_v3") < 90 := by
  with_unfolding_all decide

set_option maxRecDepth 100000 in
/-- C1 (amended): the single normalization used by the similarity scorer
lowercases the name, strips the extension, collapses `_` and `-` to spaces
and trims — it does not remove version tokens, noise words or isolated
numeric tokens — and consequently `Score("Report_v2","Report_v3") = 88.7`,
below 90, the `v2`/`v3` tokens being retained. -/
theorem c1_amended :
    normalizeFilename (gs "Report_v2") = gs "report v2" ∧
    normalizeFilename (gs "Report_v3") = gs "report v3" ∧
    calculateNameSimilarity (gs "Report_v2") (gs "Report_v3") = 887 / 10 := by
  with_unfolding_all decide

/-! ## C9 — fingerprint permutation invariance -/

theorem goStrLt_irrefl : ∀ a : GoStr, goStrLt a a = false := by
  intro a
  induction a with
  | nil => rfl
  | cons x xs ih => simp [goStrLt, ih]

theorem goStrLt_connex : ∀ a b : GoStr, a ≠ b → goStrLt a b = true ∨ goStrLt b a = true := by
  intro a
  induction a with
  | nil =>
    intro b hne
    cases b with
    | nil => exact absurd rfl hne
    | cons y ys => left; rfl
  | cons x xs ih =>
    intro b hne
    cases b with
    | nil => right; rfl
    | cons y ys =>
      rcases lt_trichotomy x y with hxy | hxy | hxy
      · left; simp [goStrLt, hxy]
      · subst hxy
        have hne' : xs ≠ ys := by intro h; exact hne (by rw [h])
        rcases ih ys hne' with h | h
        · left; simp [goStrLt, lt_irrefl, h]
        · right; simp [goStrLt, lt_irrefl, h]
      · right; simp [goStrLt, hxy, not_lt_of_gt hxy]

theorem goStrLt_trans : ∀ a b c : GoStr,
    goStrLt a b = true → goStrLt b c = true → goStrLt a c = true := by
  intro a
  induction a with
  | nil =>
    intro b c hab hbc
    cases c with
    | nil =>
      cases b with
      | nil => exact hab
      | cons y ys => simp [goStrLt] at hbc
    | cons z zs => rfl
  | cons x xs ih =>
    intro b c hab hbc
    cases b with
    | nil => simp [goStrLt] at hab
    | cons y ys =>
      cases c with
      | nil => simp [goStrLt] at hbc
      | cons z zs =>
        simp only [goStrLt] at hab hbc ⊢
        by_cases hxy : x < y
        · by_cases hyz : y < z
          · simp [lt_trans hxy hyz]
          · by_cases hzy : z < y
            · simp_all
            · have : y = z := le_antisymm (not_lt.mp hzy) (not_lt.mp hyz)
              subst this
              simp [hxy]
        · by_cases hyx : y < x
          · simp_all
          · have hxe : x = y := le_antisymm (not_lt.mp hyx) (not_lt.mp hxy)
            subst hxe
            by_cases hyz : x < z
            · simp [hyz]
            · by_cases hzy : z < x
              · simp_all
              · have : x = z := le_antisymm (not_lt.mp hzy) (not_lt.mp hyz)
                subst this
                simp only [lt_irrefl, if_false] at hab hbc ⊢
                exact ih _ _ hab hbc

theorem pathLe_total : ∀ f g : ArchiveFile, pathLe f g || pathLe g f := by
  intro f g
  by_cases h : f.path = g.path
  · simp [pathLe, h, goStrLt_irrefl]
  · rcases goStrLt_connex f.path g.path h with hl | hl
    · have : goStrLt g.path f.path = false := by
        by_contra hc
        have hc' : goStrLt g.path f.path = true := by
          revert hc; cases goStrLt g.path f.path <;> simp
        have := goStrLt_trans _ _ _ hl hc'
        rw [goStrLt_irrefl] at this
        exact Bool.noConfusion this
      simp [pathLe, this]
    · have : goStrLt f.path g.path = false := by
        by_contra hc
        have hc' : goStrLt f.path g.path = true := by
          revert hc; cases goStrLt f.path g.path <;> simp
        have := goStrLt_trans _ _ _ hl hc'
        rw [goStrLt_irrefl] at this
        exact Bool.noConfusion this
      simp [pathLe, this]

theorem pathLe_trans : ∀ f g h : ArchiveFile,
    pathLe f g = true → pathLe g h = true → pathLe f h = true := by
  intro f g h hfg hgh
  simp only [pathLe, Bool.not_eq_true'] at hfg hgh ⊢
  by_contra hc
  have hc' : goStrLt h.path f.path = true := by
    revert hc; cases goStrLt h.path f.path <;> simp
  by_cases hgf : g.path = h.path
  · rw [← hgf] at hc'
    rw [hc'] at hfg
    exact Bool.noConfusion hfg
  · rcases goStrLt_connex g.path h.path hgf with hl | hl
    · have := goStrLt_trans _ _ _ hl hc'
      rw [this] at hfg
      exact Bool.noConfusion hfg
    · rw [hl] at hgh
      exact Bool.noConfusion hgh

theorem pathLe_antisymm (f g : ArchiveFile)
    (hfg : pathLe f g = true) (hgf : pathLe g f = true) : f.path = g.path := by
  by_contra hne
  rcases goStrLt_connex f.path g.path hne with hl | hl
  · simp [pathLe, hl] at hgf
  · simp [pathLe, hl] at hfg

/-- Two path-sorted lists that are permutations of each other and have
pairwise-distinct paths are equal (the path order is only a preorder on
files, so distinctness of the sort keys substitutes for antisymmetry). -/
theorem eq_of_perm_of_pathSorted :
    ∀ (l₁ l₂ : List ArchiveFile), l₁.Perm l₂ →
      l₁.Pairwise (fun f g => pathLe f g = true) →
      l₂.Pairwise (fun f g => pathLe f g = true) →
      (l₁.map (fun f => f.path)).Nodup → l₁ = l₂ := by
  intro l₁
  induction l₁ with
  | nil => intro l₂ hp _ _ _; exact (hp.nil_eq).symm ▸ rfl
  | cons f t₁ ih =>
    intro l₂ hp hs₁ hs₂ hnd
    cases l₂ with
    | nil => exact absurd hp.symm.nil_eq (by simp)
    | cons g t₂ =>
      have hfg : f = g := by
        by_contra hne
        have hf2 : f ∈ g :: t₂ := hp.mem_iff.mp (List.mem_cons_self f t₁)
        have hg1 : g ∈ f :: t₁ := hp.symm.mem_iff.mp (List.mem_cons_self g t₂)
        have hf2' : f ∈ t₂ := by
          rcases List.mem_cons.mp hf2 with h | h
          · exact absurd h hne
          · exact h
        have hg1' : g ∈ t₁ := by
          rcases List.mem_cons.mp hg1 with h | h
          · exact absurd h.symm hne
          · exact h
        have h1 : pathLe f g = true := (List.pairwise_cons.mp hs₁).1 g hg1'
        have h2 : pathLe g f = true := (List.pairwise_cons.mp hs₂).1 f hf2'
        have hpath : f.path = g.path := pathLe_antisymm f g h1 h2
        have : f.path ∉ t₁.map (fun f => f.path) := (List.nodup_cons.mp hnd).1
        exact this (hpath ▸ List.mem_map_of_mem (fun f => f.path) hg1')
      subst hfg
      have ht : t₁.Perm t₂ := hp.cons_inv
      exact congrArg (f :: ·)
        (ih t₂ ht (List.pairwise_cons.mp hs₁).2 (List.pairwise_cons.mp hs₂).2
          (List.nodup_cons.mp hnd).2)

/-- The path sort is permutation-invariant when paths are distinct. -/
theorem mergeSortPath_perm_invariant (l₁ l₂ : List ArchiveFile)
    (hperm : l₁.Perm l₂) (hnodup : (l₁.map (fun f => f.path)).Nodup) :
    l₁.mergeSort pathLe = l₂.mergeSort pathLe := by
  have hp : (l₁.mergeSort pathLe).Perm (l₂.mergeSort pathLe) :=
    ((List.mergeSort_perm l₁ pathLe).trans hperm).trans (List.mergeSort_perm l₂ pathLe).symm
  have hnd₁ : ((l₁.mergeSort pathLe).map (fun f => f.path)).Nodup := by
    have := (List.mergeSort_perm l₁ pathLe).map (fun f => f.path)
    exact this.nodup_iff.mpr hnodup
  exact eq_of_perm_of_pathSorted _ _ hp
    (List.sorted_mergeSort pathLe_trans pathLe_total l₁)
    (List.sorted_mergeSort pathLe_trans pathLe_total l₂) hnd₁

/-- C9 (amended): `CalculateFingerprint` sorts entries by path and folds the
`(path, modification-time string)` pairs through SHA-256; for every file
list whose paths are pairwise distinct (scanner output always is, one entry
per file on disk), every reordering of the list produces the same
fingerprint. -/
theorem c9_fingerprint_shuffle_invariant (l₁ l₂ : List ArchiveFile)
    (hperm : l₁.Perm l₂) (hnodup : (l₁.map (fun f => f.path)).Nodup) :
    calculateFingerprint l₁ = calculateFingerprint l₂ := by
  unfold calculateFingerprint
  rw [mergeSortPath_perm_invariant l₁ l₂ hperm hnodup]

/-- C9 witness: a concrete two-file list and its reversal, with distinct
paths, get the same fingerprint. -/
theorem c9_fingerprint_shuffle_invariant_witness :
    calculateFingerprint
        [⟨gs "a", gs "pa", 1, gs "zip", 0, gs "ta", gs "ra", 0⟩,
         ⟨gs "b", gs "pb", 2, gs "zip", 0, gs "tb", gs "rb", 0⟩] =
      calculateFingerprint
        [⟨gs "b", gs "pb", 2, gs "zip", 0, gs "tb", gs "rb", 0⟩,
         ⟨gs "a", gs "pa", 1, gs "zip", 0, gs "ta", gs "ra", 0⟩] :=
  c9_fingerprint_shuffle_invariant _ _ (by decide) (by decide)

set_option maxRecDepth 1000000 in
/-- C9 counterexample: with two entries sharing one path (and different
modification times), reordering the list changes the fingerprint — the sort
compares only paths, so the tied entries stay in input order and the hashed
stream differs.  The universally quantified claim is therefore false. -/
theorem c9_counterexample :
    (([⟨gs "f1", gs "p", 1, gs "zip", 0, gs "1", gs "r", 0⟩,
       ⟨gs "f2", gs "p", 1, gs "zip", 0, gs "2", gs "r", 0⟩] : List ArchiveFile).Perm
      [⟨gs "f2", gs "p", 1, gs "zip", 0, gs "2", gs "r", 0⟩,
       ⟨gs "f1", gs "p", 1, gs "zip", 0, gs "1", gs "r", 0⟩]) ∧
    calculateFingerprint
        [⟨gs "f1", gs "p", 1, gs "zip", 0, gs "1", gs "r", 0⟩,
         ⟨gs "f2", gs "p", 1, gs "zip", 0, gs "2", gs "r", 0⟩] ≠
      calculateFingerprint
        [⟨gs "f2", gs "p", 1, gs "zip", 0, gs "2", gs "r", 0⟩,
         ⟨gs "f1", gs "p", 1, gs "zip", 0, gs "1", gs "r", 0⟩] := by
  constructor
  · decide
  · with_unfolding_all decide

/-! ## C6 — STL format detection and binary parsing -/

set_option maxRecDepth 10000 in
/-- C6 (amended): a byte stream is parsed as binary STL exactly when its
length is at least 84 and it does not start with `solid` (otherwise it is
parsed as text); for a declared triangle count `T`, parsing succeeds with
`triangleCount = T` and `vertexCount = 3T` whenever the length is at least
`84 + 50*T` (extra trailing bytes are accepted, not an error), and parsing
returns an error exactly when the length is below `84 + 50*T`. -/
theorem c6_amended :
    (∀ (data : List Nat) (T : Nat), readU32LE data 80 = T →
        ¬ solidToken.isPrefixOf data → 84 + T * 50 ≤ data.length →
        parseSTL data = .ok ⟨T, T * 3, true⟩) ∧
    (∀ (data : List Nat) (T : Nat), readU32LE data 80 = T →
        ¬ solidToken.isPrefixOf data → 84 ≤ data.length →
        data.length < 84 + T * 50 →
        parseSTL data = .error (.lengthMismatch (84 + T * 50) data.length)) ∧
    (∀ data : List Nat, data.length < 84 ∨ solidToken.isPrefixOf data →
        parseSTL data = parseASCIISTL data ∧
        ∃ t v, parseASCIISTL data = .ok ⟨t, v, false⟩) := by
  refine ⟨?_, ?_, ?_⟩
  · intro data T hT hpre hlen
    have h84 : 84 ≤ data.length := by omega
    have hbin : isBinarySTL data = true := by
      simp [isBinarySTL, h84, hpre]
    simp only [parseSTL, hbin, if_true, parseBinarySTL, hT]
    rw [if_neg (by omega), if_neg (by omega)]
  · intro data T hT hpre h84 hlen
    have hbin : isBinarySTL data = true := by
      simp [isBinarySTL, h84, hpre]
    simp only [parseSTL, hbin, if_true, parseBinarySTL, hT]
    rw [if_neg (by omega), if_pos (by omega)]
  · intro data hcase
    have hbin : isBinarySTL data = false := by
      rcases hcase with h | h
      · simp [isBinarySTL]; omega
      · simp [isBinarySTL, h]
    refine ⟨by simp [parseSTL, hbin], ?_⟩
    exact ⟨_, _, rfl⟩

set_option maxRecDepth 100000 in
/-- C6 counterexample: a binary STL declaring one triangle but carrying one
extra trailing byte (length 135 ≠ 84 + 50·1) parses successfully instead of
returning an error, refuting "whenever the byte length does not match
84 + 50*T ... parsing returns an error". -/
theorem c6_counterexample :
    parseSTL (List.replicate 80 0 ++ [1, 0, 0, 0] ++ List.replicate 51 7) =
      .ok ⟨1, 3, true⟩ ∧
    (List.replicate 80 0 ++ [1, 0, 0, 0] ++ (List.replicate 51 7 : List Nat)).length ≠
      84 + 1 * 50 := by
  decide

set_option maxRecDepth 100000 in
/-- C6 witness: a well-formed one-triangle binary STL (exactly 134 bytes)
parses to one triangle and three vertices. -/
theorem c6_amended_witness :
    parseSTL (List.replicate 80 0 ++ [1, 0, 0, 0] ++ List.replicate 50 7) =
      .ok ⟨1, 3, true⟩ :=
  c6_amended.1 _ 1 (by decide) (by decide) (by decide)

/-! ## C8 — greedy visual clustering -/

theorem collectHashes_mem (files : List ArchiveFile) (cache : GoStr → GoStr → Option Nat) :
    ∀ fh ∈ collectHashes files cache, getHash cache fh.1 = some fh.2 := by
  intro fh hmem
  rcases List.mem_filterMap.mp hmem with ⟨f, _, hf⟩
  rcases Option.map_eq_some'.mp hf with ⟨h, hh, hfh⟩
  rw [← hfh]
  exact hh

theorem absorbScan_mem (sh : Nat) :
    ∀ (rest : List (ArchiveFile × Nat)) (acc : List (ArchiveFile × Nat) × List GoStr)
      (x : ArchiveFile × Nat),
      x ∈ (rest.foldl
        (fun acc fh =>
          if acc.2.contains fh.1.path then acc
          else if hammingDistance sh fh.2 ≤ 8 then
            (acc.1 ++ [fh], acc.2 ++ [fh.1.path])
          else acc) acc).1 →
      x ∈ acc.1 ∨ (x ∈ rest ∧ hammingDistance sh x.2 ≤ 8) := by
  intro rest
  induction rest with
  | nil => intro acc x hx; exact Or.inl hx
  | cons r rest ih =>
    intro acc x hx
    simp only [List.foldl_cons] at hx
    by_cases h1 : acc.2.contains r.1.path
    · rw [if_pos h1] at hx
      rcases ih acc x hx with h | h
      · exact Or.inl h
      · exact Or.inr ⟨List.mem_cons_of_mem r h.1, h.2⟩
    · rw [if_neg h1] at hx
      by_cases h2 : hammingDistance sh r.2 ≤ 8
      · rw [if_pos h2] at hx
        rcases ih _ x hx with h | h
        · rcases List.mem_append.mp h with h' | h'
          · exact Or.inl h'
          · have : x = r := by simpa using h'
            subst this
            exact Or.inr ⟨List.mem_cons_self x rest, h2⟩
        · exact Or.inr ⟨List.mem_cons_of_mem r h.1, h.2⟩
      · rw [if_neg h2] at hx
        rcases ih acc x hx with h | h
        · exact Or.inl h
        · exact Or.inr ⟨List.mem_cons_of_mem r h.1, h.2⟩

/-- Everything absorbed into a cluster came from the scanned tail and is
within Hamming distance 8 of the seed hash. -/
theorem absorbScan_sound (sh : Nat) (rest : List (ArchiveFile × Nat)) (visited : List GoStr) :
    ∀ x ∈ (absorbScan sh rest visited).1, x ∈ rest ∧ hammingDistance sh x.2 ≤ 8 := by
  intro x hx
  rcases absorbScan_mem sh rest ([], visited) x hx with h | h
  · simp at h
  · exact h

theorem hammingDistance_self (h : Nat) : hammingDistance h h = 0 := by
  unfold hammingDistance
  rw [show Nat.xor h h = 0 from Nat.xor_self h]
  unfold popCount
  simp

/-- Soundness of the greedy clustering pass: every reported group has at
least two members, every member's hash is the cached one, and every member
is within Hamming distance 8 of the group's seed (its first member). -/
theorem clusterScan_sound (cache : GoStr → GoStr → Option Nat) :
    ∀ (hashes : List (ArchiveFile × Nat)) (visited : List GoStr),
      (∀ fh ∈ hashes, getHash cache fh.1 = some fh.2) →
      ∀ g ∈ clusterScan cache hashes visited,
        2 ≤ g.files.length ∧
        (∀ fi ∈ g.files, cache fi.path fi.modTime = some fi.pHash) ∧
        (∀ fi ∈ g.files,
          hammingDistance (g.files.headD default).pHash fi.pHash ≤ 8) := by
  intro hashes
  induction hashes with
  | nil => intro visited _ g hg; simp [clusterScan] at hg
  | cons fh rest ih =>
    intro visited hcache g hg
    have hcrest : ∀ x ∈ rest, getHash cache x.1 = some x.2 :=
      fun x hx => hcache x (List.mem_cons_of_mem fh hx)
    have hcfh : getHash cache fh.1 = some fh.2 := hcache fh (List.mem_cons_self fh rest)
    rw [clusterScan] at hg
    by_cases hv : visited.contains fh.1.path
    · rw [if_pos hv] at hg
      exact ih visited hcrest g hg
    · rw [if_neg hv] at hg
      by_cases hlen : 1 < (fh :: (absorbScan fh.2 rest (visited ++ [fh.1.path])).1).length
      · rw [if_pos hlen] at hg
        rcases List.mem_cons.mp hg with hgeq | hgrest
        · subst hgeq
          have habs := absorbScan_sound fh.2 rest (visited ++ [fh.1.path])
          have hmemall : ∀ x ∈ fh :: (absorbScan fh.2 rest (visited ++ [fh.1.path])).1,
              getHash cache x.1 = some x.2 ∧ hammingDistance fh.2 x.2 ≤ 8 := by
            intro x hx
            rcases List.mem_cons.mp hx with hxe | hxa
            · subst hxe
              exact ⟨hcfh, by rw [hammingDistance_self]; omega⟩
            · exact ⟨hcrest x (habs x hxa).1, (habs x hxa).2⟩
          refine ⟨?_, ?_, ?_⟩
          · simpa [mkVisualGroup] using hlen
          · intro fi hfi
            simp only [mkVisualGroup, List.mem_map] at hfi
            rcases hfi with ⟨x, hx, hconv⟩
            have hc := (hmemall x hx).1
            subst hconv
            simp only [getHash] at hc ⊢
            simp [hc]
          · intro fi hfi
            simp only [mkVisualGroup, List.mem_map] at hfi
            rcases hfi with ⟨x, hx, hconv⟩
            have hc := (hmemall x hx).1
            have h8 := (hmemall x hx).2
            subst hconv
            simp only [mkVisualGroup, List.map_cons, List.headD_cons, getHash] at hcfh hc ⊢
            simp [hcfh, hc, h8]
        · exact ih _ hcrest g hgrest
      · rw [if_neg hlen] at hg
        exact ih _ hcrest g hg

/-- C8: `FindVisualDuplicates` clusters exactly the files with a cached
perceptual hash; the caller-supplied threshold has no effect on the output;
reported clusters have at least two members; every member carries its cached
hash and lies within the fixed Hamming bound 8 of the cluster's seed (the
first member, scanned in input order).  Size-1 clusters are never reported
(every reported cluster has length ≥ 2). -/
theorem c8_visual_clustering (files : List ArchiveFile)
    (cache : GoStr → GoStr → Option Nat) (threshold : Int) :
    (∀ threshold' : Int, findVisualDuplicates files cache threshold
        = findVisualDuplicates files cache threshold') ∧
    (∀ g ∈ findVisualDuplicates files cache threshold,
        2 ≤ g.files.length ∧
        (∀ fi ∈ g.files, cache fi.path fi.modTime = some fi.pHash) ∧
        (∀ fi ∈ g.files,
          hammingDistance (g.files.headD default).pHash fi.pHash ≤ 8)) := by
  constructor
  · intro t'; rfl
  · intro g hg
    unfold findVisualDuplicates at hg
    by_cases h1 : files.length < 2
    · rw [if_pos h1] at hg; simp at hg
    · rw [if_neg h1] at hg
      by_cases h2 : (collectHashes files cache).length < 2
      · rw [if_pos h2] at hg; simp at hg
      · rw [if_neg h2] at hg
        exact clusterScan_sound cache _ [] (collectHashes_mem files cache) g hg

set_option maxRecDepth 100000 in
/-- C8 witness: two files with cached hashes 0 and 3 (Hamming distance 2)
form one reported cluster; the theorem instantiated at that concrete input. -/
theorem c8_visual_clustering_witness :
    2 ≤ (VisualGroup.mk (gs "Visual Match: n1")
          [⟨gs "n1", gs "p1", 1, gs "zip", gs "r1", 0⟩,
           ⟨gs "n2", gs "p2", 2, gs "zip", gs "r2", 3⟩]).files.length ∧
    (∀ fi ∈ (VisualGroup.mk (gs "Visual Match: n1")
          [⟨gs "n1", gs "p1", 1, gs "zip", gs "r1", 0⟩,
           ⟨gs "n2", gs "p2", 2, gs "zip", gs "r2", 3⟩]).files,
        (fun p (_ : GoStr) => if p = gs "p1" then some 0 else
          if p = gs "p2" then some 3 else none) fi.path fi.modTime = some fi.pHash) ∧
    (∀ fi ∈ (VisualGroup.mk (gs "Visual Match: n1")
          [⟨gs "n1", gs "p1", 1, gs "zip", gs "r1", 0⟩,
           ⟨gs "n2", gs "p2", 2, gs "zip", gs "r2", 3⟩]).files,
        hammingDistance
          ((VisualGroup.mk (gs "Visual Match: n1")
            [⟨gs "n1", gs "p1", 1, gs "zip", gs "r1", 0⟩,
             ⟨gs "n2", gs "p2", 2, gs "zip", gs "r2", 3⟩]).files.headD default).pHash
          fi.pHash ≤ 8) :=
  (c8_visual_clustering
    [⟨gs "n1", gs "p1", 1, gs "zip", 0, gs "t1", gs "r1", 0⟩,
     ⟨gs "n2", gs "p2", 2, gs "zip", 0, gs "t2", gs "r2", 0⟩]
    (fun p _ => if p = gs "p1" then some 0 else if p = gs "p2" then some 3 else none)
    90).2 _ (by with_unfolding_all decide)

/-! ## C7 — preview selection priority chain -/
theorem largestScan_fold_spec (pred : GoStr → Bool) :
    ∀ (l : List PreviewInfo) (acc : GoStr × Int),
      (l.foldl (largestStep pred) acc = acc ∨
        ∃ f ∈ l, l.foldl (largestStep pred) acc = (f.path, f.size) ∧ pred f.path = true) ∧
      acc.2 ≤ (l.foldl (largestStep pred) acc).2 ∧
      (∀ g ∈ l, pred g.path = true → g.size ≤ (l.foldl (largestStep pred) acc).2) := by
  intro l
  induction l with
  | nil => exact fun acc => ⟨Or.inl rfl, le_refl _, by simp⟩
  | cons f l ih =>
    intro acc
    simp only [List.foldl_cons]
    by_cases hc : (pred f.path && decide (acc.2 < f.size)) = true
    · rw [show largestStep pred acc f = (f.path, f.size) from by
        unfold largestStep; rw [if_pos hc]]
      rcases (by simpa using hc : pred f.path = true ∧ acc.2 < f.size) with ⟨hpred, hsz⟩
      rcases ih (f.path, f.size) with ⟨hcase, hle, hmax⟩
      refine ⟨?_, ?_, ?_⟩
      · rcases hcase with h | ⟨f', hf', hr, hp'⟩
        · exact Or.inr ⟨f, List.mem_cons_self f l, h, hpred⟩
        · exact Or.inr ⟨f', List.mem_cons_of_mem f hf', hr, hp'⟩
      · exact le_of_lt (lt_of_lt_of_le hsz hle)
      · intro g hg hgp
        rcases List.mem_cons.mp hg with hge | hgl
        · subst hge; exact hle
        · exact hmax g hgl hgp
    · rw [show largestStep pred acc f = acc from by unfold largestStep; rw [if_neg hc]]
      rcases ih acc with ⟨hcase, hle, hmax⟩
      refine ⟨?_, hle, ?_⟩
      · rcases hcase with h | ⟨f', hf', hr, hp'⟩
        · exact Or.inl h
        · exact Or.inr ⟨f', List.mem_cons_of_mem f hf', hr, hp'⟩
      · intro g hg hgp
        rcases List.mem_cons.mp hg with hge | hgl
        · subst hge
          have hnlt : ¬ acc.2 < g.size := by
            intro hlt
            exact hc (by simp [hgp, hlt])
          exact le_trans (not_lt.mp hnlt) hle
        · exact hmax g hgl hgp

theorem largestScan_none (pred : GoStr → Bool) (previews : List PreviewInfo)
    (hne : ∀ f ∈ previews, f.path ≠ [])
    (h : (largestScan pred previews).1 = []) :
    ∀ g ∈ previews, pred g.path = true → g.size ≤ 0 := by
  rcases largestScan_fold_spec pred previews ([], 0) with ⟨hcase, _, hmax⟩
  rcases hcase with hr | ⟨f, hf, hr, _⟩
  · intro g hg hgp
    have hm := hmax g hg hgp
    rw [show previews.foldl (largestStep pred) ([], 0) = largestScan pred previews from rfl,
      show largestScan pred previews = ([], 0) from hr] at hm
    exact hm
  · rw [show previews.foldl (largestStep pred) ([], 0) = largestScan pred previews from rfl] at hr
    rw [hr] at h
    exact absurd h (hne f hf)

theorem largestScan_some (pred : GoStr → Bool) (previews : List PreviewInfo)
    (h : (largestScan pred previews).1 ≠ []) :
    ∃ f ∈ previews, (largestScan pred previews).1 = f.path ∧ pred f.path = true ∧
      ∀ g ∈ previews, pred g.path = true → g.size ≤ f.size := by
  rcases largestScan_fold_spec pred previews ([], 0) with ⟨hcase, _, hmax⟩
  rcases hcase with hr | ⟨f, hf, hr, hp⟩
  · rw [show previews.foldl (largestStep pred) ([], 0) = largestScan pred previews from rfl] at hr
    rw [hr] at h
    exact absurd rfl h
  · rw [show previews.foldl (largestStep pred) ([], 0) = largestScan pred previews from rfl] at hr
    refine ⟨f, hf, by rw [hr], hp, ?_⟩
    intro g hg hgp
    have hm := hmax g hg hgp
    rw [show previews.foldl (largestStep pred) ([], 0) = largestScan pred previews from rfl,
      hr] at hm
    exact hm

theorem foldl_no_update (pred : GoStr → Bool) :
    ∀ (l : List PreviewInfo) (acc : GoStr × Int),
      (∀ g ∈ l, pred g.path = true → g.size ≤ acc.2) →
      l.foldl (largestStep pred) acc = acc := by
  intro l
  induction l with
  | nil => intro acc _; rfl
  | cons f l ih =>
    intro acc hall
    simp only [List.foldl_cons]
    have hstep : largestStep pred acc f = acc := by
      unfold largestStep
      by_cases hp : pred f.path = true
      · have : ¬ acc.2 < f.size := not_lt.mpr (hall f (List.mem_cons_self f l) hp)
        rw [if_neg (by simp [hp, this])]
      · rw [if_neg (by simp [hp])]
    rw [hstep]
    exact ih acc fun g hg => hall g (List.mem_cons_of_mem f hg)

theorem largestScan_empty_of_nonpos (pred : GoStr → Bool) (previews : List PreviewInfo)
    (h : ∀ g ∈ previews, pred g.path = true → g.size ≤ 0) :
    largestScan pred previews = ([], 0) := by
  unfold largestScan
  exact foldl_no_update pred previews ([], 0) (by simpa using h)

theorem isImageFile_no_macosx {p : GoStr} (h : isImageFile p = true) :
    goContains (p.map goToLower) (gs "__macosx") = false := by
  unfold isImageFile at h
  by_cases hc : (goContains (p.map goToLower) (gs "__macosx")
      || goContains (p.map goToLower) (gs "@eadir")) = true
  · rw [if_pos hc] at h; exact absurd h (by simp)
  · simp only [Bool.or_eq_true, not_or] at hc
    simpa using hc.1

theorem isImageFile_no_eadir {p : GoStr} (h : isImageFile p = true) :
    goContains (p.map goToLower) (gs "@eadir") = false := by
  unfold isImageFile at h
  by_cases hc : (goContains (p.map goToLower) (gs "__macosx")
      || goContains (p.map goToLower) (gs "@eadir")) = true
  · rw [if_pos hc] at h; exact absurd h (by simp)
  · simp only [Bool.or_eq_true, not_or] at hc
    simpa using hc.2

theorem isVideoFile_no_macosx {p : GoStr} (h : isVideoFile p = true) :
    goContains (p.map goToLower) (gs "__macosx") = false := by
  unfold isVideoFile at h
  by_cases hc : (goContains (p.map goToLower) (gs "__macosx")
      || goContains (p.map goToLower) (gs "@eadir")) = true
  · rw [if_pos hc] at h; exact absurd h (by simp)
  · simp only [Bool.or_eq_true, not_or] at hc
    simpa using hc.1

theorem isVideoFile_no_eadir {p : GoStr} (h : isVideoFile p = true) :
    goContains (p.map goToLower) (gs "@eadir") = false := by
  unfold isVideoFile at h
  by_cases hc : (goContains (p.map goToLower) (gs "__macosx")
      || goContains (p.map goToLower) (gs "@eadir")) = true
  · rw [if_pos hc] at h; exact absurd h (by simp)
  · simp only [Bool.or_eq_true, not_or] at hc
    simpa using hc.2

theorem isModelFile_no_macosx {p : GoStr} (h : isModelFile p = true) :
    goContains (p.map goToLower) (gs "__macosx") = false := by
  unfold isModelFile at h
  by_cases hc : goContains (p.map goToLower) (gs "__macosx") = true
  · rw [if_pos hc] at h; exact absurd h (by simp)
  · simpa using hc

theorem previewEligible_of_image {p : GoStr} (h : isImageFile p = true) :
    previewEligible p = true := by simp [previewEligible, h]

theorem previewEligible_of_video {p : GoStr} (h : isVideoFile p = true) :
    previewEligible p = true := by simp [previewEligible, h]

theorem previewEligible_of_model {p : GoStr} (h : isModelFile p = true) :
    previewEligible p = true := by simp [previewEligible, h]

theorem c7_image_tier (entries : List PreviewInfo)
    (hne : ∀ f ∈ entries, f.path ≠ [])
    (hex : ∃ f ∈ entries, isImageFile f.path = true ∧ 0 < f.size) :
    ∃ p, findPreviewPathInArchive entries = some p ∧ isImageFile p = true ∧
      ∃ f ∈ entries, f.path = p ∧
        ∀ g ∈ entries, isImageFile g.path = true → g.size ≤ f.size := by
  rcases hex with ⟨f₀, hf₀, himg₀, hpos₀⟩
  have hf₀P : f₀ ∈ entries.filter fun f => previewEligible f.path :=
    List.mem_filter.mpr ⟨hf₀, previewEligible_of_image himg₀⟩
  have hlen : ¬ (entries.filter fun f => previewEligible f.path).length = 0 := by
    intro h
    rw [List.length_eq_zero] at h
    rw [h] at hf₀P
    simp at hf₀P
  have hneP : ∀ f ∈ entries.filter fun f => previewEligible f.path, f.path ≠ [] :=
    fun f hf => hne f (List.mem_filter.mp hf).1
  have himgne : (largestScan isImageFile (entries.filter fun f => previewEligible f.path)).1 ≠ [] := by
    intro hemp
    have := largestScan_none isImageFile _ hneP hemp f₀ hf₀P himg₀
    omega
  rcases largestScan_some isImageFile _ himgne with ⟨f, hfP, hpath, hpred, hmax⟩
  refine ⟨(largestScan isImageFile (entries.filter fun f => previewEligible f.path)).1, ?_, ?_, ?_⟩
  · unfold findPreviewPathInArchive
    simp only []
    rw [if_neg hlen, if_pos himgne]
  · rw [hpath]; exact hpred
  · refine ⟨f, (List.mem_filter.mp hfP).1, hpath.symm, ?_⟩
    intro g hg hgimg
    exact hmax g (List.mem_filter.mpr ⟨hg, previewEligible_of_image hgimg⟩) hgimg

theorem c7_video_tier (entries : List PreviewInfo)
    (hne : ∀ f ∈ entries, f.path ≠ [])
    (hnoimg : ∀ f ∈ entries, isImageFile f.path = true → f.size ≤ 0)
    (hex : ∃ f ∈ entries, isVideoFile f.path = true ∧ 0 < f.size) :
    ∃ p, findPreviewPathInArchive entries = some p ∧ isVideoFile p = true ∧
      ∃ f ∈ entries, f.path = p ∧
        ∀ g ∈ entries, isVideoFile g.path = true → g.size ≤ f.size := by
  rcases hex with ⟨f₀, hf₀, hvid₀, hpos₀⟩
  have hf₀P : f₀ ∈ entries.filter fun f => previewEligible f.path :=
    List.mem_filter.mpr ⟨hf₀, previewEligible_of_video hvid₀⟩
  have hlen : ¬ (entries.filter fun f => previewEligible f.path).length = 0 := by
    intro h
    rw [List.length_eq_zero] at h
    rw [h] at hf₀P
    simp at hf₀P
  have hneP : ∀ f ∈ entries.filter fun f => previewEligible f.path, f.path ≠ [] :=
    fun f hf => hne f (List.mem_filter.mp hf).1
  have himg0 : largestScan isImageFile (entries.filter fun f => previewEligible f.path)
      = ([], 0) :=
    largestScan_empty_of_nonpos _ _
      (fun g hg hgp => hnoimg g (List.mem_filter.mp hg).1 hgp)
  have hvidne : (largestScan isVideoFile (entries.filter fun f => previewEligible f.path)).1 ≠ [] := by
    intro hemp
    have := largestScan_none isVideoFile _ hneP hemp f₀ hf₀P hvid₀
    omega
  rcases largestScan_some isVideoFile _ hvidne with ⟨f, hfP, hpath, hpred, hmax⟩
  refine ⟨(largestScan isVideoFile (entries.filter fun f => previewEligible f.path)).1, ?_, ?_, ?_⟩
  · unfold findPreviewPathInArchive
    simp only []
    rw [if_neg hlen, himg0]
    rw [if_neg (by simp), if_pos hvidne]
  · rw [hpath]; exact hpred
  · refine ⟨f, (List.mem_filter.mp hfP).1, hpath.symm, ?_⟩
    intro g hg hgv
    exact hmax g (List.mem_filter.mpr ⟨hg, previewEligible_of_video hgv⟩) hgv

theorem c7_keyword_tier (entries : List PreviewInfo)
    (hne : ∀ f ∈ entries, f.path ≠ [])
    (hnoimg : ∀ f ∈ entries, isImageFile f.path = true → f.size ≤ 0)
    (hnovid : ∀ f ∈ entries, isVideoFile f.path = true → f.size ≤ 0)
    (hex : ∃ f ∈ entries, isModelFile f.path = true ∧ hasKeyword f.path = true) :
    ∃ p, findPreviewPathInArchive entries = some p ∧ isModelFile p = true ∧
      hasKeyword p = true := by
  rcases hex with ⟨f₀, hf₀, hmod₀, hkw₀⟩
  have hf₀P : f₀ ∈ entries.filter fun f => previewEligible f.path :=
    List.mem_filter.mpr ⟨hf₀, previewEligible_of_model hmod₀⟩
  have hlen : ¬ (entries.filter fun f => previewEligible f.path).length = 0 := by
    intro h
    rw [List.length_eq_zero] at h
    rw [h] at hf₀P
    simp at hf₀P
  have himg0 : largestScan isImageFile (entries.filter fun f => previewEligible f.path)
      = ([], 0) :=
    largestScan_empty_of_nonpos _ _
      (fun g hg hgp => hnoimg g (List.mem_filter.mp hg).1 hgp)
  have hvid0 : largestScan isVideoFile (entries.filter fun f => previewEligible f.path)
      = ([], 0) :=
    largestScan_empty_of_nonpos _ _
      (fun g hg hgp => hnovid g (List.mem_filter.mp hg).1 hgp)
  have hfind : ∃ x ∈ entries.filter fun f => previewEligible f.path,
      (isModelFile x.path && hasKeyword x.path) = true :=
    ⟨f₀, hf₀P, by simp [hmod₀, hkw₀]⟩
  have hfindSome : ((entries.filter fun f => previewEligible f.path).find?
      fun f => isModelFile f.path && hasKeyword f.path).isSome := by
    rw [List.find?_isSome]
    rcases hfind with ⟨x, hx, hpx⟩
    exact ⟨x, hx, hpx⟩
  rcases Option.isSome_iff_exists.mp hfindSome with ⟨f, hf⟩
  have hfprop := List.find?_some hf
  have hfmem := List.mem_of_find?_eq_some hf
  refine ⟨f.path, ?_, ?_, ?_⟩
  · unfold findPreviewPathInArchive
    simp only []
    rw [if_neg hlen, himg0]
    rw [if_neg (by simp), hvid0]
    rw [if_neg (by simp), hf]
  · exact (Bool.and_elim_left hfprop)
  · exact (Bool.and_elim_right hfprop)

theorem c7_model_tier (entries : List PreviewInfo)
    (hne : ∀ f ∈ entries, f.path ≠ [])
    (hnoimg : ∀ f ∈ entries, isImageFile f.path = true → f.size ≤ 0)
    (hnovid : ∀ f ∈ entries, isVideoFile f.path = true → f.size ≤ 0)
    (hnokw : ∀ f ∈ entries, ¬ (isModelFile f.path = true ∧ hasKeyword f.path = true))
    (hex : ∃ f ∈ entries, isModelFile f.path = true ∧ 0 < f.size) :
    ∃ p, findPreviewPathInArchive entries = some p ∧ isModelFile p = true ∧
      ∃ f ∈ entries, f.path = p ∧
        ∀ g ∈ entries, isModelFile g.path = true → g.size ≤ f.size := by
  rcases hex with ⟨f₀, hf₀, hmod₀, hpos₀⟩
  have hf₀P : f₀ ∈ entries.filter fun f => previewEligible f.path :=
    List.mem_filter.mpr ⟨hf₀, previewEligible_of_model hmod₀⟩
  have hlen : ¬ (entries.filter fun f => previewEligible f.path).length = 0 := by
    intro h
    rw [List.length_eq_zero] at h
    rw [h] at hf₀P
    simp at hf₀P
  have hneP : ∀ f ∈ entries.filter fun f => previewEligible f.path, f.path ≠ [] :=
    fun f hf => hne f (List.mem_filter.mp hf).1
  have himg0 : largestScan isImageFile (entries.filter fun f => previewEligible f.path)
      = ([], 0) :=
    largestScan_empty_of_nonpos _ _
      (fun g hg hgp => hnoimg g (List.mem_filter.mp hg).1 hgp)
  have hvid0 : largestScan isVideoFile (entries.filter fun f => previewEligible f.path)
      = ([], 0) :=
    largestScan_empty_of_nonpos _ _
      (fun g hg hgp => hnovid g (List.mem_filter.mp hg).1 hgp)
  have hfindNone : ((entries.filter fun f => previewEligible f.path).find?
      fun f => isModelFile f.path && hasKeyword f.path) = none := by
    rw [List.find?_eq_none]
    intro x hx hpx
    exact hnokw x (List.mem_filter.mp hx).1 (by
      rcases Bool.and_eq_true_iff.mp hpx with ⟨h1, h2⟩
      exact ⟨h1, h2⟩)
  have hmodne : (largestScan isModelFile (entries.filter fun f => previewEligible f.path)).1 ≠ [] := by
    intro hemp
    have := largestScan_none isModelFile _ hneP hemp f₀ hf₀P hmod₀
    omega
  rcases largestScan_some isModelFile _ hmodne with ⟨f, hfP, hpath, hpred, hmax⟩
  refine ⟨(largestScan isModelFile (entries.filter fun f => previewEligible f.path)).1, ?_, ?_, ?_⟩
  · unfold findPreviewPathInArchive
    simp only []
    rw [if_neg hlen, himg0]
    rw [if_neg (by simp), hvid0]
    rw [if_neg (by simp), hfindNone]
    rw [if_pos hmodne]
  · rw [hpath]; exact hpred
  · refine ⟨f, (List.mem_filter.mp hfP).1, hpath.symm, ?_⟩
    intro g hg hgm
    exact hmax g (List.mem_filter.mpr ⟨hg, previewEligible_of_model hgm⟩) hgm

theorem c7_result_candidate (entries : List PreviewInfo) (p : GoStr)
    (hres : findPreviewPathInArchive entries = some p) :
    (∃ f ∈ entries, f.path = p) ∧
    (isImageFile p = true ∨ isVideoFile p = true ∨ isModelFile p = true) := by
  unfold findPreviewPathInArchive at hres
  simp only [] at hres
  by_cases hlen : (entries.filter fun f => previewEligible f.path).length = 0
  · rw [if_pos hlen] at hres; exact absurd hres (by simp)
  · rw [if_neg hlen] at hres
    by_cases h1 : (largestScan isImageFile (entries.filter fun f => previewEligible f.path)).1 ≠ []
    · rw [if_pos h1] at hres
      rcases largestScan_some isImageFile _ h1 with ⟨f, hfP, hpath, hpred, _⟩
      have hp : p = f.path := by
        rw [← hpath]
        exact (Option.some_injective _ hres).symm
      subst hp
      exact ⟨⟨f, (List.mem_filter.mp hfP).1, rfl⟩, Or.inl hpred⟩
    · rw [if_neg h1] at hres
      by_cases h2 : (largestScan isVideoFile (entries.filter fun f => previewEligible f.path)).1 ≠ []
      · rw [if_pos h2] at hres
        rcases largestScan_some isVideoFile _ h2 with ⟨f, hfP, hpath, hpred, _⟩
        have hp : p = f.path := by
          rw [← hpath]
          exact (Option.some_injective _ hres).symm
        subst hp
        exact ⟨⟨f, (List.mem_filter.mp hfP).1, rfl⟩, Or.inr (Or.inl hpred)⟩
      · rw [if_neg h2] at hres
        rcases hfind : (entries.filter fun f => previewEligible f.path).find?
            (fun f => isModelFile f.path && hasKeyword f.path) with _ | f
        · rw [hfind] at hres
          by_cases h3 : (largestScan isModelFile (entries.filter fun f => previewEligible f.path)).1 ≠ []
          · rw [if_pos h3] at hres
            rcases largestScan_some isModelFile _ h3 with ⟨f, hfP, hpath, hpred, _⟩
            have hp : p = f.path := by
              rw [← hpath]
              exact (Option.some_injective _ hres).symm
            subst hp
            exact ⟨⟨f, (List.mem_filter.mp hfP).1, rfl⟩, Or.inr (Or.inr hpred)⟩
          · rw [if_neg h3] at hres; exact absurd hres (by simp)
        · rw [hfind] at hres
          have hp : p = f.path := (Option.some_injective _ hres).symm
          subst hp
          have hfprop := List.find?_some hfind
          exact ⟨⟨f, (List.mem_filter.mp (List.mem_of_find?_eq_some hfind)).1, rfl⟩,
            Or.inr (Or.inr (Bool.and_elim_left hfprop))⟩

/-- C7 (amended): preview selection follows the strict priority chain —
(1) largest image by uncompressed size, (2) largest video, (3) first 3D
model whose path contains a keyword, (4) largest 3D model — each tier
attempted only if the previous yields nothing (no entry of positive size,
resp. no keyword model); the returned path is always one of the eligible
entries; entries under `__MACOSX` are excluded from every tier, while
`@eaDir` is excluded from the image and video tiers only: a path containing
`@eadir` can be returned, and then only as a 3D model. -/
theorem c7_preview_chain (entries : List PreviewInfo)
    (hne : ∀ f ∈ entries, f.path ≠ []) :
    (∀ p, findPreviewPathInArchive entries = some p →
        (∃ f ∈ entries, f.path = p) ∧
        (isImageFile p = true ∨ isVideoFile p = true ∨ isModelFile p = true) ∧
        goContains (p.map goToLower) (gs "__macosx") = false ∧
        (goContains (p.map goToLower) (gs "@eadir") = true → isModelFile p = true)) ∧
    ((∃ f ∈ entries, isImageFile f.path = true ∧ 0 < f.size) →
      ∃ p, findPreviewPathInArchive entries = some p ∧ isImageFile p = true ∧
        ∃ f ∈ entries, f.path = p ∧
          ∀ g ∈ entries, isImageFile g.path = true → g.size ≤ f.size) ∧
    ((∀ f ∈ entries, isImageFile f.path = true → f.size ≤ 0) →
      (∃ f ∈ entries, isVideoFile f.path = true ∧ 0 < f.size) →
      ∃ p, findPreviewPathInArchive entries = some p ∧ isVideoFile p = true ∧
        ∃ f ∈ entries, f.path = p ∧
          ∀ g ∈ entries, isVideoFile g.path = true → g.size ≤ f.size) ∧
    ((∀ f ∈ entries, isImageFile f.path = true → f.size ≤ 0) →
      (∀ f ∈ entries, isVideoFile f.path = true → f.size ≤ 0) →
      (∃ f ∈ entries, isModelFile f.path = true ∧ hasKeyword f.path = true) →
      ∃ p, findPreviewPathInArchive entries = some p ∧ isModelFile p = true ∧
        hasKeyword p = true) ∧
    ((∀ f ∈ entries, isImageFile f.path = true → f.size ≤ 0) →
      (∀ f ∈ entries, isVideoFile f.path = true → f.size ≤ 0) →
      (∀ f ∈ entries, ¬ (isModelFile f.path = true ∧ hasKeyword f.path = true)) →
      (∃ f ∈ entries, isModelFile f.path = true ∧ 0 < f.size) →
      ∃ p, findPreviewPathInArchive entries = some p ∧ isModelFile p = true ∧
        ∃ f ∈ entries, f.path = p ∧
          ∀ g ∈ entries, isModelFile g.path = true → g.size ≤ f.size) := by
  refine ⟨?_, c7_image_tier entries hne, c7_video_tier entries hne,
    c7_keyword_tier entries hne, c7_model_tier entries hne⟩
  intro p hres
  rcases c7_result_candidate entries p hres with ⟨hmem, hone⟩
  refine ⟨hmem, hone, ?_, ?_⟩
  · rcases hone with h | h | h
    · exact isImageFile_no_macosx h
    · exact isVideoFile_no_macosx h
    · exact isModelFile_no_macosx h
  · intro hea
    rcases hone with h | h | h
    · rw [isImageFile_no_eadir h] at hea
      exact absurd hea (by simp)
    · rw [isVideoFile_no_eadir h] at hea
      exact absurd hea (by simp)
    · exact h

set_option maxRecDepth 100000 in
/-- C7 counterexample: an archive whose only entry is a keyword model under
`@eaDir` gets that entry selected as preview — the system-metadata directory
`@eaDir` is NOT excluded from the 3D-model tiers (`isModelFile` only filters
`__MACOSX`), refuting "excluded from every tier". -/
theorem c7_counterexample :
    findPreviewPathInArchive [⟨gs "@eaDir/full.stl", 10⟩] = some (gs "@eaDir/full.stl") ∧
    goContains ((gs "@eaDir/full.stl").map goToLower) (gs "@eadir") = true ∧
    isModelFile (gs "@eaDir/full.stl") = true := by
  decide

set_option maxRecDepth 100000 in
/-- C7 witness: with two images and a model present, the chain returns the
largest image. -/
theorem c7_preview_chain_witness :
    ∃ p, findPreviewPathInArchive [⟨gs "a.jpg", 5⟩, ⟨gs "b.jpg", 9⟩, ⟨gs "m.stl", 99⟩]
        = some p ∧ isImageFile p = true ∧
      ∃ f ∈ [PreviewInfo.mk (gs "a.jpg") 5, ⟨gs "b.jpg", 9⟩, ⟨gs "m.stl", 99⟩],
        f.path = p ∧
        ∀ g ∈ [PreviewInfo.mk (gs "a.jpg") 5, ⟨gs "b.jpg", 9⟩, ⟨gs "m.stl", 99⟩],
          isImageFile g.path = true → g.size ≤ f.size :=
  (c7_preview_chain [⟨gs "a.jpg", 5⟩, ⟨gs "b.jpg", 9⟩, ⟨gs "m.stl", 99⟩] (by decide)).2.1
    (by decide)

/-! ## C2 — multi-volume detection, same-set predicate, cleanup exclusion -/

set_option maxRecDepth 100000 in
/-- C2 (amended): `DetectPart` (spec-modelled, see `detectPart`) recognizes
both pattern families — `name.part3.rar` (separator family) and
`backup.zip.001` (numeric-extension family, base stripped of the archive
extension) — and two files form one multi-volume set exactly when both are
detected as parts with equal bases and different tokens, so
`backup.zip.001`/`backup.zip.002` are one set; the automatic cleanup path is
blocked for any file matched by the cleanup's own pattern test
`isMultiVolumePart` (name contains `.part` or `.z0`, or three-digit numeric
extension) — not for every `DetectPart`-detected part. -/
theorem c2_multivolume :
    detectPart (gs "name.part3.rar") = ⟨true, gs "name", gs "3"⟩ ∧
    detectPart (gs "backup.zip.001") = ⟨true, gs "backup", gs "001"⟩ ∧
    (∀ n1 n2 : GoStr, sameMultiVolumeSet n1 n2 = true ↔
      ((detectPart n1).isPart = true ∧ (detectPart n2).isPart = true ∧
       (detectPart n1).baseName = (detectPart n2).baseName ∧
       (detectPart n1).partToken ≠ (detectPart n2).partToken)) ∧
    sameMultiVolumeSet (gs "backup.zip.001") (gs "backup.zip.002") = true ∧
    (∀ (f1 f2 : ArchiveFile) (mode : GoStr),
      (isMultiVolumePart f1.name || isMultiVolumePart f2.name) = true →
      cleanupCandidate mode f1 f2 = none) := by
  refine ⟨by decide, by decide, ?_, by decide, ?_⟩
  · intro n1 n2
    unfold sameMultiVolumeSet
    simp [Bool.and_eq_true, bne_iff_ne]
    tauto
  · intro f1 f2 mode h
    unfold cleanupCandidate
    rw [if_pos h]

set_option maxRecDepth 100000 in
/-- C2 counterexample: `name_part03.rar` is detected as a multi-volume part
by `DetectPart` (separator family, `_part` + digits), but the cleanup path's
own test `isMultiVolumePart` does not match it (no `.part`, no `.z0`, no
numeric extension), so the automatic cleanup still proposes deleting it —
a `DetectPart`-detected part is not excluded from the deletion path. -/
theorem c2_counterexample :
    (detectPart (gs "name_part03.rar")).isPart = true ∧
    isMultiVolumePart (gs "name_part03.rar") = false ∧
    cleanupCandidate (gs "oldest")
        ⟨gs "name_part03.rar", gs "p1", 1, gs "rar", 0, gs "t", gs "r", 0⟩
        ⟨gs "other.rar", gs "p2", 1, gs "rar", 5, gs "t", gs "r", 0⟩
      = some ⟨gs "name_part03.rar", gs "p1", 1, gs "rar", 0, gs "t", gs "r", 0⟩ := by
  decide

set_option maxRecDepth 100000 in
/-- C2 witness: a `.part1.rar` file is matched by the cleanup pattern test
and the cleanup path proposes nothing. -/
theorem c2_multivolume_witness :
    cleanupCandidate (gs "oldest")
        ⟨gs "x.part1.rar", gs "p1", 1, gs "rar", 0, gs "t", gs "r", 0⟩
        ⟨gs "x.part2.rar", gs "p2", 1, gs "rar", 5, gs "t", gs "r", 0⟩ = none :=
  c2_multivolume.2.2.2.2 _ _ _ (by decide)

/-! ## C3 and C10 — FindSimilarNames: schedule-independence of the pair multiset -/

theorem join_set_cons {α : Type} : ∀ (queues : List (List α)) (k : Nat) (x : α) (xs : List α),
    queues.getD k [] = x :: xs → queues.flatten.Perm (x :: (queues.set k xs).flatten) := by
  intro queues
  induction queues with
  | nil => intro k x xs h; simp at h
  | cons q qs ih =>
    intro k x xs h
    cases k with
    | zero =>
      rw [List.getD_cons_zero] at h
      subst h
      simp only [List.set_cons_zero, List.flatten_cons, List.cons_append]
      exact List.Perm.refl _
    | succ k =>
      rw [List.getD_cons_succ] at h
      simp only [List.set_cons_succ, List.flatten_cons]
      exact ((ih k x xs h).append_left q).trans (List.perm_middle)

theorem mergeSchedule_perm {α : Type} :
    ∀ (sched : List Nat) (queues : List (List α)),
      (mergeSchedule queues sched).Perm queues.flatten := by
  intro sched
  induction sched with
  | nil => intro queues; exact List.Perm.refl _
  | cons k rest ih =>
    intro queues
    rw [mergeSchedule]
    cases hq : queues.getD k [] with
    | nil => exact ih queues
    | cons x xs =>
      exact ((ih (queues.set k xs)).cons x).trans (join_set_cons queues k x xs hq).symm

theorem sum_onehot (c : Nat) : ∀ (n : Nat) (w₀ : Nat), w₀ < n →
    ((List.range n).map (fun w => if w₀ = w then c else 0)).sum = c := by
  intro n
  induction n with
  | zero => intro w₀ h; omega
  | succ n ih =>
    intro w₀ h
    rw [List.range_succ, List.map_append, List.sum_append]
    by_cases hw : w₀ = n
    · subst hw
      have hz : ((List.range w₀).map (fun w => if w₀ = w then c else 0)).sum = 0 := by
        apply List.sum_eq_zero
        intro x hx
        rcases List.mem_map.mp hx with ⟨w, hw, hval⟩
        have : w₀ ≠ w := by
          have := List.mem_range.mp hw
          omega
        rw [if_neg this] at hval
        exact hval.symm
      simp [hz]
    · have hlt : w₀ < n := by omega
      rw [ih w₀ hlt]
      simp [hw]

theorem bind_filter_mod_perm (l : List Nat) (n : Nat) (hn : 0 < n) :
    ((List.range n).flatMap fun w => l.filter fun i => i % n = w).Perm l := by
  rw [List.perm_iff_count]
  intro a
  rw [List.count_flatMap]
  have hcount : ∀ w, (l.filter fun i => i % n = w).count a
      = if a % n = w then l.count a else 0 := by
    intro w
    by_cases hw : a % n = w
    · rw [if_pos hw]
      rw [List.count_filter]
      simp [hw]
    · rw [if_neg hw]
      rw [List.count_eq_zero]
      intro hmem
      have := List.of_mem_filter hmem
      simp at this
      exact hw this
  calc ((List.range n).map (List.count a ∘ fun w => l.filter fun i => i % n = w)).sum
      = ((List.range n).map (fun w => if a % n = w then l.count a else 0)).sum := by
        congr 1
        apply List.map_congr_left
        intro w _
        exact hcount w
    _ = l.count a := sum_onehot (l.count a) n (a % n) (Nat.mod_lt a hn)

theorem workers_join_perm (nf : List NormalizedFile) (threshold : Int) (n : Nat) (hn : 0 < n) :
    ((List.range n).map (workerPairs nf threshold n)).flatten.Perm
      ((List.range nf.length).flatMap (rowPairs nf threshold)) := by
  show ((List.range n).flatMap (workerPairs nf threshold n)).Perm
      ((List.range nf.length).flatMap (rowPairs nf threshold))
  unfold workerPairs
  rw [← List.flatMap_assoc]
  exact List.Perm.flatMap_right (rowPairs nf threshold)
    (bind_filter_mod_perm (List.range nf.length) n hn)

/-- C3 (amended): for every file list, threshold, pool size (at least 1) and
collection schedule, `FindSimilarNames` produces exactly the pairs and
scores of the sequential single-worker pass — as a multiset: the output is a
permutation of the deterministic candidate list.  The order of the pairs is
the only schedule-dependent part (see the counterexample). -/
theorem c3_pairs_schedule_perm (files : List ArchiveFile) (threshold : Int) (n : Nat) (sched : List Nat)
    (hn : 0 < n) :
    (findSimilarNames files threshold n sched).Perm (candidatePairs files threshold) := by
  unfold findSimilarNames candidatePairs
  by_cases hlen : files.length < 2
  · rw [if_pos hlen]
    rcases files with _ | ⟨f, _ | ⟨g, t⟩⟩
    · simp [normalizeAll, rowPairs]
    · simp [normalizeAll, rowPairs]
    · simp only [List.length_cons] at hlen
      omega
  · rw [if_neg hlen]
    exact (mergeSchedule_perm sched _).trans (workers_join_perm _ threshold n hn)

theorem similarCheck_some {t : Int} {f1 f2 : NormalizedFile} {p : SimilarPair}
    (h : similarCheck t f1 f2 = some p) :
    p.file1 = f1.file ∧ p.file2 = f2.file ∧ f1.file.size ≠ f2.file.size := by
  unfold similarCheck at h
  by_cases h1 : f1.file.size = f2.file.size
  · rw [if_pos h1] at h; exact absurd h (by simp)
  · rw [if_neg h1] at h
    by_cases h2 : 0 < f1.normalizedName.length ∧ 0 < f2.normalizedName.length ∧
        ((f1.normalizedName.length : ℚ) / (f2.normalizedName.length : ℚ) < 2 / 5 ∨
         (f1.normalizedName.length : ℚ) / (f2.normalizedName.length : ℚ) > 5 / 2)
    · rw [if_pos h2] at h; exact absurd h (by simp)
    · rw [if_neg h2] at h
      by_cases h3 : (t : ℚ) ≤ calculateNormalizedSimilarity f1.normalizedName f2.normalizedName
      · rw [if_pos h3] at h
        have := Option.some_injective _ h
        subst this
        exact ⟨rfl, rfl, h1⟩
      · rw [if_neg h3] at h; exact absurd h (by simp)

/-- C10: every pair returned by `FindSimilarNames` consists of two files
with different byte sizes — equal-size candidates are skipped before
scoring, for every file list, threshold, pool size and schedule. -/
theorem c10_pairs_sizes_differ (files : List ArchiveFile) (threshold : Int) (numWorkers : Nat)
    (sched : List Nat) (p : SimilarPair)
    (hp : p ∈ findSimilarNames files threshold numWorkers sched) :
    p.file1.size ≠ p.file2.size := by
  unfold findSimilarNames at hp
  by_cases hlen : files.length < 2
  · rw [if_pos hlen] at hp; simp at hp
  · rw [if_neg hlen] at hp
    have hjoin := (mergeSchedule_perm sched
      ((List.range numWorkers).map
        (workerPairs (normalizeAll files) threshold numWorkers))).mem_iff.mp hp
    rcases List.mem_flatten.mp hjoin with ⟨q, hq, hpq⟩
    rcases List.mem_map.mp hq with ⟨w, _, hqw⟩
    subst hqw
    rcases List.mem_flatMap.mp hpq with ⟨i, _, hpi⟩
    rcases List.mem_filterMap.mp hpi with ⟨j, _, hcheck⟩
    rcases similarCheck_some hcheck with ⟨h1, h2, hne⟩
    rw [h1, h2]
    exact hne

set_option maxRecDepth 1000000 in
/-- C3 counterexample: with two workers, two collection schedules of the
same run produce the same pairs in different orders, so the output is not
identical "on every run ... in the same order". -/
theorem c3_counterexample :
    findSimilarNames
        [⟨gs "a1", gs "p1", 1, gs "zip", 0, gs "t", gs "r", 0⟩,
         ⟨gs "a2", gs "p2", 2, gs "zip", 0, gs "t", gs "r", 0⟩,
         ⟨gs "a3", gs "p3", 3, gs "zip", 0, gs "t", gs "r", 0⟩] 0 2 [0] ≠
      findSimilarNames
        [⟨gs "a1", gs "p1", 1, gs "zip", 0, gs "t", gs "r", 0⟩,
         ⟨gs "a2", gs "p2", 2, gs "zip", 0, gs "t", gs "r", 0⟩,
         ⟨gs "a3", gs "p3", 3, gs "zip", 0, gs "t", gs "r", 0⟩] 0 2 [1] := by
  with_unfolding_all decide

set_option maxRecDepth 1000000 in
/-- C10 witness: the first returned pair of a concrete run has different
sizes. -/
theorem c10_pairs_sizes_differ_witness :
    (SimilarPair.mk ⟨gs "a1", gs "p1", 1, gs "zip", 0, gs "t", gs "r", 0⟩
      ⟨gs "a2", gs "p2", 2, gs "zip", 0, gs "t", gs "r", 0⟩ 46).file1.size ≠
    (SimilarPair.mk ⟨gs "a1", gs "p1", 1, gs "zip", 0, gs "t", gs "r", 0⟩
      ⟨gs "a2", gs "p2", 2, gs "zip", 0, gs "t", gs "r", 0⟩ 46).file2.size :=
  c10_pairs_sizes_differ [⟨gs "a1", gs "p1", 1, gs "zip", 0, gs "t", gs "r", 0⟩,
         ⟨gs "a2", gs "p2", 2, gs "zip", 0, gs "t", gs "r", 0⟩,
         ⟨gs "a3", gs "p3", 3, gs "zip", 0, gs "t", gs "r", 0⟩] 0 2 [0] _
    (by with_unfolding_all decide)

/-- C3 witness: the permutation statement at a concrete two-file input. -/
theorem c3_pairs_schedule_perm_witness :
    (findSimilarNames
        [⟨gs "a1", gs "p1", 1, gs "zip", 0, gs "t", gs "r", 0⟩,
         ⟨gs "a2", gs "p2", 2, gs "zip", 0, gs "t", gs "r", 0⟩] 0 2 [0, 1]).Perm
      (candidatePairs
        [⟨gs "a1", gs "p1", 1, gs "zip", 0, gs "t", gs "r", 0⟩,
         ⟨gs "a2", gs "p2", 2, gs "zip", 0, gs "t", gs "r", 0⟩] 0) :=
  c3_pairs_schedule_perm _ 0 2 [0, 1] (by decide)

/-! ## C5 — score contract: formula and range (shared Jaro infrastructure) -/

theorem jaroPairs_eq_scan_aux (s1 s2 : GoStr) (d : Nat) :
    ∀ (is : List Nat) (acc : List (Nat × Nat)),
      is.foldl (fun acc i =>
        match jaroPick s1 s2 d (acc.map Prod.snd) i with
        | some j => acc ++ [(i, j)]
        | none => acc) acc
      = acc ++ jaroScan s1 s2 d is (acc.map Prod.snd) := by
  intro is
  induction is with
  | nil => intro acc; simp [jaroScan]
  | cons i is ih =>
    intro acc
    simp only [List.foldl_cons]
    cases hpick : jaroPick s1 s2 d (acc.map Prod.snd) i with
    | none =>
      rw [jaroScan, hpick]
      exact ih acc
    | some j =>
      rw [jaroScan, hpick]
      rw [ih (acc ++ [(i, j)])]
      simp

theorem jaroPairs_eq_scan (s1 s2 : GoStr) (d : Nat) :
    jaroPairs s1 s2 d = jaroScan s1 s2 d (List.range s1.length) [] := by
  unfold jaroPairs
  rw [jaroPairs_eq_scan_aux s1 s2 d (List.range s1.length) []]
  simp

theorem jaroPick_some (s1 s2 : GoStr) (d : Nat) (M : List Nat) (i j : Nat)
    (h : jaroPick s1 s2 d M i = some j) :
    j ∉ M ∧ s2.getD j default = s1.getD i default ∧
      i ≤ j + d ∧ j ≤ i + d ∧ j < s2.length := by
  unfold jaroPick at h
  have hpred := List.find?_some h
  have hmem := List.mem_of_find?_eq_some h
  rcases (by simpa using hpred : ¬ j ∈ M ∧ s2.getD j default = s1.getD i default)
    with ⟨h1, h2⟩
  have hrange := List.mem_range'_1.mp hmem
  refine ⟨h1, h2, ?_, ?_, ?_⟩ <;> omega

theorem jaroScan_fst_sublist (s1 s2 : GoStr) (d : Nat) :
    ∀ (is : List Nat) (M : List Nat),
      ((jaroScan s1 s2 d is M).map Prod.fst).Sublist is := by
  intro is
  induction is with
  | nil => intro M; simp [jaroScan]
  | cons i is ih =>
    intro M
    rw [jaroScan]
    cases hpick : jaroPick s1 s2 d M i with
    | none => exact (ih M).cons i
    | some j =>
      simp only [List.map_cons]
      exact (ih (M ++ [j])).cons₂ i

theorem jaroScan_mem (s1 s2 : GoStr) (d : Nat) :
    ∀ (is : List Nat) (M : List Nat) (p : Nat × Nat), p ∈ jaroScan s1 s2 d is M →
      p.1 ∈ is ∧ p.2 ∉ M ∧ s2.getD p.2 default = s1.getD p.1 default ∧
        p.1 ≤ p.2 + d ∧ p.2 ≤ p.1 + d ∧ p.2 < s2.length := by
  intro is
  induction is with
  | nil => intro M p hp; simp [jaroScan] at hp
  | cons i is ih =>
    intro M p hp
    rw [jaroScan] at hp
    cases hpick : jaroPick s1 s2 d M i with
    | none =>
      rw [hpick] at hp
      rcases ih M p hp with ⟨h1, h2, h3, h4, h5, h6⟩
      exact ⟨List.mem_cons_of_mem i h1, h2, h3, h4, h5, h6⟩
    | some j =>
      rw [hpick] at hp
      rcases List.mem_cons.mp hp with hpe | hpt
      · subst hpe
        rcases jaroPick_some s1 s2 d M i j hpick with ⟨h1, h2, h3, h4, h5⟩
        exact ⟨List.mem_cons_self i is, h1, h2, h3, h4, h5⟩
      · rcases ih (M ++ [j]) p hpt with ⟨h1, h2, h3, h4, h5, h6⟩
        refine ⟨List.mem_cons_of_mem i h1, ?_, h3, h4, h5, h6⟩
        intro hc
        exact h2 (List.mem_append_left [j] hc)

theorem jaroScan_snd_nodup (s1 s2 : GoStr) (d : Nat) :
    ∀ (is : List Nat) (M : List Nat),
      ((jaroScan s1 s2 d is M).map Prod.snd).Nodup ∧
      ∀ j ∈ (jaroScan s1 s2 d is M).map Prod.snd, j ∉ M := by
  intro is
  induction is with
  | nil => intro M; simp [jaroScan]
  | cons i is ih =>
    intro M
    rw [jaroScan]
    cases hpick : jaroPick s1 s2 d M i with
    | none => exact ih M
    | some j =>
      rcases ih (M ++ [j]) with ⟨hnd, hnm⟩
      simp only [List.map_cons]
      constructor
      · rw [List.nodup_cons]
        refine ⟨?_, hnd⟩
        intro hc
        exact hnm j hc (List.mem_append_right M (by simp))
      · intro j' hj'
        rcases List.mem_cons.mp hj' with hje | hjt
        · subst hje
          exact (jaroPick_some s1 s2 d M i j' hpick).1
        · intro hc
          exact hnm j' hjt (List.mem_append_left [j] hc)

theorem nodup_subset_length {l₁ l₂ : List Nat} (hnd : l₁.Nodup)
    (hsub : ∀ x ∈ l₁, x ∈ l₂) : l₁.length ≤ l₂.length := by
  calc l₁.length = l₁.toFinset.card := (List.toFinset_card_of_nodup hnd).symm
    _ ≤ l₂.toFinset.card := Finset.card_le_card (by
        intro x hx
        rw [List.mem_toFinset] at hx ⊢
        exact hsub x hx)
    _ ≤ l₂.length := l₂.toFinset_card_le

theorem jaroPairs_length_le_left (s1 s2 : GoStr) (d : Nat) :
    (jaroPairs s1 s2 d).length ≤ s1.length := by
  rw [jaroPairs_eq_scan]
  calc (jaroScan s1 s2 d (List.range s1.length) []).length
      = ((jaroScan s1 s2 d (List.range s1.length) []).map Prod.fst).length := by simp
    _ ≤ (List.range s1.length).length :=
        (jaroScan_fst_sublist s1 s2 d (List.range s1.length) []).length_le
    _ = s1.length := by simp

theorem jaroPairs_length_le_right (s1 s2 : GoStr) (d : Nat) :
    (jaroPairs s1 s2 d).length ≤ s2.length := by
  rw [jaroPairs_eq_scan]
  calc (jaroScan s1 s2 d (List.range s1.length) []).length
      = ((jaroScan s1 s2 d (List.range s1.length) []).map Prod.snd).length := by simp
    _ ≤ (List.range s2.length).length := by
        apply nodup_subset_length (jaroScan_snd_nodup s1 s2 d (List.range s1.length) []).1
        intro j hj
        rcases List.mem_map.mp hj with ⟨p, hp, hpe⟩
        rw [List.mem_range]
        rw [← hpe]
        exact (jaroScan_mem s1 s2 d (List.range s1.length) [] p hp).2.2.2.2.2
    _ = s2.length := by simp

theorem jaroTranspositions_le (s1 s2 : GoStr) (pairs : List (Nat × Nat)) :
    jaroTranspositions s1 s2 pairs ≤ pairs.length := by
  unfold jaroTranspositions
  calc (((jaroLeftChars s1 pairs).zip (jaroRightChars s2 pairs)).filter
        fun p => p.1 ≠ p.2).length
      ≤ ((jaroLeftChars s1 pairs).zip (jaroRightChars s2 pairs)).length :=
        List.length_filter_le _ _
    _ ≤ (jaroLeftChars s1 pairs).length := by
        rw [List.length_zip]
        omega
    _ = pairs.length := by simp [jaroLeftChars]

theorem levenshteinDistance_le : ∀ (n : Nat) (s t : GoStr), s.length + t.length ≤ n →
    levenshteinDistance s t ≤ max s.length t.length := by
  intro n
  induction n with
  | zero =>
    intro s t h
    have hs : s = [] := List.length_eq_zero.mp (by omega)
    have ht : t = [] := List.length_eq_zero.mp (by omega)
    subst hs; subst ht
    simp [levenshteinDistance]
  | succ n ih =>
    intro s t h
    cases s with
    | nil => simp [levenshteinDistance]
    | cons x xs =>
      cases t with
      | nil => simp [levenshteinDistance]
      | cons y ys =>
        rw [levenshteinDistance]
        have h3 := ih xs ys (by simp only [List.length_cons] at h; omega)
        have hc : (if x = y then 0 else 1) ≤ 1 := by split <;> omega
        calc min (min (levenshteinDistance xs (y :: ys) + 1)
                (levenshteinDistance (x :: xs) ys + 1))
              (levenshteinDistance xs ys + if x = y then 0 else 1)
            ≤ levenshteinDistance xs ys + (if x = y then 0 else 1) :=
              min_le_right _ _
          _ ≤ max xs.length ys.length + 1 := by omega
          _ ≤ max (x :: xs).length (y :: ys).length := by
              simp only [List.length_cons]
              omega

theorem levenshteinDistance_self : ∀ s : GoStr, levenshteinDistance s s = 0 := by
  intro s
  induction s with
  | nil => simp [levenshteinDistance]
  | cons x xs ih =>
    rw [levenshteinDistance]
    simp [ih]

theorem levenshteinSimilarity_bounds (s1 s2 : GoStr) :
    0 ≤ levenshteinSimilarity s1 s2 ∧ levenshteinSimilarity s1 s2 ≤ 1 := by
  unfold levenshteinSimilarity
  by_cases hm : ((max s1.length s2.length : Nat) : ℚ) = 0
  · rw [if_pos hm]; norm_num
  · rw [if_neg hm]
    have hmpos : 0 < ((max s1.length s2.length : Nat) : ℚ) :=
      lt_of_le_of_ne (by positivity) (Ne.symm hm)
    have hd : (levenshteinDistance s1 s2 : ℚ) ≤ ((max s1.length s2.length : Nat) : ℚ) := by
      exact_mod_cast levenshteinDistance_le (s1.length + s2.length) s1 s2 le_rfl
    have hdn : 0 ≤ (levenshteinDistance s1 s2 : ℚ) := Nat.cast_nonneg _
    constructor
    · have : (levenshteinDistance s1 s2 : ℚ) / ((max s1.length s2.length : Nat) : ℚ) ≤ 1 :=
        (div_le_one hmpos).mpr hd
      linarith
    · have : 0 ≤ (levenshteinDistance s1 s2 : ℚ) / ((max s1.length s2.length : Nat) : ℚ) :=
        div_nonneg hdn (le_of_lt hmpos)
      linarith

theorem jaroSimilarity_bounds (s1 s2 : GoStr) :
    0 ≤ jaroSimilarity s1 s2 ∧ jaroSimilarity s1 s2 ≤ 1 := by
  unfold jaroSimilarity
  by_cases he : s1 = s2
  · rw [if_pos he]; norm_num
  · rw [if_neg he]
    by_cases hz : s1.length = 0 ∨ s2.length = 0
    · rw [if_pos hz]; norm_num
    · rw [if_neg hz]
      by_cases hm : (jaroPairs s1 s2 (jaroMatchDistance s1.length s2.length)).length = 0
      · rw [if_pos hm]; norm_num
      · rw [if_neg hm]
        set pairs := jaroPairs s1 s2 (jaroMatchDistance s1.length s2.length) with hpairs
        set m := pairs.length with hmdef
        set t := jaroTranspositions s1 s2 pairs with htdef
        have hl1 : 0 < s1.length := by omega
        have hl2 : 0 < s2.length := by omega
        have hml : m ≤ s1.length := jaroPairs_length_le_left s1 s2 _
        have hmr : m ≤ s2.length := jaroPairs_length_le_right s1 s2 _
        have hmpos : 0 < m := Nat.pos_of_ne_zero hm
        have htm : t ≤ m := jaroTranspositions_le s1 s2 pairs
        have ha : 0 ≤ (m : ℚ) / (s1.length : ℚ) ∧ (m : ℚ) / (s1.length : ℚ) ≤ 1 := by
          constructor
          · positivity
          · rw [div_le_one (by exact_mod_cast hl1)]
            exact_mod_cast hml
        have hb : 0 ≤ (m : ℚ) / (s2.length : ℚ) ∧ (m : ℚ) / (s2.length : ℚ) ≤ 1 := by
          constructor
          · positivity
          · rw [div_le_one (by exact_mod_cast hl2)]
            exact_mod_cast hmr
        have hnum : (0 : ℤ) ≤ (m : ℤ) - (t : ℤ) / 2 ∧ (m : ℤ) - (t : ℤ) / 2 ≤ (m : ℤ) := by
          constructor
          · have h1 : (t : ℤ) / 2 ≤ (t : ℤ) :=
              Int.ediv_le_self 2 (by exact_mod_cast Nat.zero_le t)
            have h2 : (t : ℤ) ≤ (m : ℤ) := by exact_mod_cast htm
            omega
          · have : 0 ≤ (t : ℤ) / 2 := Int.ediv_nonneg (by exact_mod_cast Nat.zero_le t) (by norm_num)
            omega
        have hc : 0 ≤ (((m : ℤ) - (t : ℤ) / 2 : ℤ) : ℚ) / (m : ℚ) ∧
            (((m : ℤ) - (t : ℤ) / 2 : ℤ) : ℚ) / (m : ℚ) ≤ 1 := by
          have hmq : (0 : ℚ) < (m : ℚ) := by exact_mod_cast hmpos
          constructor
          · apply div_nonneg _ (le_of_lt hmq)
            exact_mod_cast hnum.1
          · rw [div_le_one hmq]
            exact_mod_cast hnum.2
        constructor
        · have := ha.1; have := hb.1; have := hc.1
          linarith
        · have := ha.2; have := hb.2; have := hc.2
          linarith

theorem jaroWinklerSimilarity_bounds (s1 s2 : GoStr) :
    0 ≤ jaroWinklerSimilarity s1 s2 ∧ jaroWinklerSimilarity s1 s2 ≤ 1 := by
  unfold jaroWinklerSimilarity
  rcases jaroSimilarity_bounds s1 s2 with ⟨hj0, hj1⟩
  set j := jaroSimilarity s1 s2
  set p := min (commonStart s1 s2) 4 with hpdef
  have hp0 : (0 : ℚ) ≤ (p : ℚ) := Nat.cast_nonneg p
  have hp4 : (p : ℚ) ≤ 4 := by
    have : p ≤ 4 := min_le_right _ _
    exact_mod_cast this
  constructor
  · have : 0 ≤ (p : ℚ) * (1 / 10) * (1 - j) :=
      mul_nonneg (mul_nonneg hp0 (by norm_num)) (by linarith)
    linarith
  · nlinarith

theorem getNgrams_nodup (s : GoStr) (n : Nat) : (getNgrams s n).Nodup := by
  unfold getNgrams
  split
  · simp
  · exact List.nodup_dedup _

theorem getNgrams_ne_nil (s : GoStr) (n : Nat) : getNgrams s n ≠ [] := by
  unfold getNgrams
  split
  · simp
  · intro h
    rw [List.dedup_eq_nil] at h
    rw [List.map_eq_nil] at h
    rw [List.range_eq_nil] at h
    omega

theorem nodup_subset_length' {α : Type} [DecidableEq α] {l₁ l₂ : List α} (hnd : l₁.Nodup)
    (hsub : ∀ x ∈ l₁, x ∈ l₂) : l₁.length ≤ l₂.length := by
  calc l₁.length = l₁.toFinset.card := (List.toFinset_card_of_nodup hnd).symm
    _ ≤ l₂.toFinset.card := Finset.card_le_card (by
        intro x hx
        rw [List.mem_toFinset] at hx ⊢
        exact hsub x hx)
    _ ≤ l₂.length := l₂.toFinset_card_le

theorem ngramSimilarity_bounds (s1 s2 : GoStr) (n : Nat) :
    0 ≤ ngramSimilarity s1 s2 n ∧ ngramSimilarity s1 s2 n ≤ 1 := by
  unfold ngramSimilarity
  by_cases h1 : (getNgrams s1 n).length = 0 ∧ (getNgrams s2 n).length = 0
  · rw [if_pos h1]; norm_num
  · rw [if_neg h1]
    by_cases h2 : (getNgrams s1 n).length = 0 ∨ (getNgrams s2 n).length = 0
    · rw [if_pos h2]; norm_num
    · rw [if_neg h2]
      set g1 := getNgrams s1 n
      set g2 := getNgrams s2 n
      set common := (g1.filter fun g => g2.contains g).length with hcdef
      by_cases h3 : ((g1.length : ℤ) + (g2.length : ℤ) - (common : ℤ)) = 0
      · rw [if_pos h3]; norm_num
      · rw [if_neg h3]
        have hc1 : common ≤ g1.length := List.length_filter_le _ _
        have hc2 : common ≤ g2.length := by
          apply nodup_subset_length' ((getNgrams_nodup s1 n).filter _)
          intro x hx
          have := List.of_mem_filter hx
          simpa using this
        have htot : (common : ℤ) ≤ (g1.length : ℤ) + (g2.length : ℤ) - (common : ℤ) := by
          have h1' : (common : ℤ) ≤ (g1.length : ℤ) := by exact_mod_cast hc1
          have h2' : (common : ℤ) ≤ (g2.length : ℤ) := by exact_mod_cast hc2
          omega
        have htpos : (0 : ℤ) < (g1.length : ℤ) + (g2.length : ℤ) - (common : ℤ) := by
          have : (0 : ℤ) ≤ (common : ℤ) := by exact_mod_cast Nat.zero_le common
          omega
        have htq : (0 : ℚ) < (((g1.length : ℤ) + (g2.length : ℤ) - (common : ℤ) : ℤ) : ℚ) := by
          exact_mod_cast htpos
        constructor
        · apply div_nonneg _ (le_of_lt htq)
          exact_mod_cast Nat.zero_le common
        · rw [div_le_one htq]
          exact_mod_cast htot

theorem levenshteinSimilarity_self (s : GoStr) : levenshteinSimilarity s s = 1 := by
  unfold levenshteinSimilarity
  by_cases hm : ((max s.length s.length : Nat) : ℚ) = 0
  · rw [if_pos hm]
  · rw [if_neg hm]
    rw [levenshteinDistance_self]
    simp

theorem jaroWinklerSimilarity_self (s : GoStr) : jaroWinklerSimilarity s s = 1 := by
  unfold jaroWinklerSimilarity jaroSimilarity
  rw [if_pos rfl]
  ring

theorem ngramSimilarity_self (s : GoStr) (n : Nat) : ngramSimilarity s s n = 1 := by
  unfold ngramSimilarity
  have hlen : (getNgrams s n).length ≠ 0 := by
    intro h
    exact getNgrams_ne_nil s n (List.length_eq_zero.mp h)
  rw [if_neg (by tauto), if_neg (by tauto)]
  have hfil : (getNgrams s n).filter (fun g => (getNgrams s n).contains g)
      = getNgrams s n := by
    apply List.filter_eq_self.mpr
    intro a ha
    simpa using ha
  rw [hfil]
  rw [if_neg (by
    intro h
    omega)]
  have hq : ((getNgrams s n).length : ℚ) ≠ 0 := by exact_mod_cast hlen
  rw [show ((getNgrams s n).length : ℤ) + ((getNgrams s n).length : ℤ)
      - ((getNgrams s n).length : ℤ) = ((getNgrams s n).length : ℤ) by ring]
  push_cast
  exact div_self hq

theorem roundHalfAway_bounds {q : ℚ} (h0 : 0 ≤ q) (h1 : q ≤ 1000) :
    0 ≤ roundHalfAway q ∧ roundHalfAway q ≤ 1000 := by
  unfold roundHalfAway
  rw [if_pos h0]
  constructor
  · have : (0 : ℤ) ≤ ⌊q + 1 / 2⌋ := Int.le_floor.mpr (by push_cast; linarith)
    exact_mod_cast this
  · have : ⌊q + 1 / 2⌋ < 1001 := Int.floor_lt.mpr (by push_cast; linarith)
    have h' : ⌊q + 1 / 2⌋ ≤ 1000 := by omega
    exact_mod_cast h'

/-- C5: for all input names, the score equals the fixed weighted sum
`0.5*Levenshtein + 0.3*JaroWinkler + 0.2*BigramJaccard` of the two
normalized names, scaled to 0-100 and rounded to one decimal place (the
equal-input short-circuit agrees with the formula), and it always lies in
`[0, 100]`.  Weights are the exact rationals modelling the Go float
constants. -/
theorem c5_score_contract (name1 name2 : GoStr) :
    calculateNameSimilarity name1 name2
      = specScoreFormula (normalizeFilename name1) (normalizeFilename name2) ∧
    0 ≤ calculateNameSimilarity name1 name2 ∧
    calculateNameSimilarity name1 name2 ≤ 100 := by
  unfold calculateNameSimilarity
  set n1 := normalizeFilename name1
  set n2 := normalizeFilename name2
  rcases levenshteinSimilarity_bounds n1 n2 with ⟨hl0, hl1⟩
  rcases jaroWinklerSimilarity_bounds n1 n2 with ⟨hj0, hj1⟩
  rcases ngramSimilarity_bounds n1 n2 2 with ⟨hn0, hn1⟩
  have hs0 : 0 ≤ (levenshteinSimilarity n1 n2 * (1 / 2)
      + jaroWinklerSimilarity n1 n2 * (3 / 10)
      + ngramSimilarity n1 n2 2 * (1 / 5)) * 100 * 10 := by nlinarith
  have hs1 : (levenshteinSimilarity n1 n2 * (1 / 2)
      + jaroWinklerSimilarity n1 n2 * (3 / 10)
      + ngramSimilarity n1 n2 2 * (1 / 5)) * 100 * 10 ≤ 1000 := by nlinarith
  rcases roundHalfAway_bounds hs0 hs1 with ⟨hr0, hr1⟩
  by_cases he : n1 = n2
  · have hform : specScoreFormula n2 n2 = 100 := by
      unfold specScoreFormula
      rw [levenshteinSimilarity_self, jaroWinklerSimilarity_self, ngramSimilarity_self]
      rw [show ((1:ℚ) * (1/2) + 1 * (3/10) + 1 * (1/5)) * 100 * 10 = 1000 by norm_num]
      unfold roundHalfAway
      rw [if_pos (by norm_num : (0:ℚ) ≤ 1000)]
      rw [show ⌊(1000:ℚ) + 1/2⌋ = (1000:ℤ) from Int.floor_eq_iff.mpr ⟨by norm_num, by norm_num⟩]
      norm_num
    unfold calculateNormalizedSimilarity
    rw [if_pos he, he, hform]
    norm_num
  · unfold calculateNormalizedSimilarity
    rw [if_neg he]
    refine ⟨rfl, ?_, ?_⟩
    · linarith
    · linarith

/-! ## C4: symmetry and reflexivity of the similarity score

The match phase of `jaroSimilarity` is greedy and asymmetric on its face; the
lemmas below show its matched-pair multiset is symmetric under swapping the
two strings (per-character-class the greedy scan is a two-pointer sweep,
which is symmetric), from which symmetry of the transposition count and of
the full score follows. -/
theorem levenshteinDistance_symm : ∀ (n : Nat) (s t : GoStr), s.length + t.length ≤ n →
    levenshteinDistance s t = levenshteinDistance t s := by
  intro n
  induction n with
  | zero =>
    intro s t h
    have hs : s = [] := List.length_eq_zero.mp (by omega)
    have ht : t = [] := List.length_eq_zero.mp (by omega)
    subst hs; subst ht; rfl
  | succ n ih =>
    intro s t h
    cases s with
    | nil =>
      cases t with
      | nil => rfl
      | cons y ys => simp [levenshteinDistance]
    | cons x xs =>
      cases t with
      | nil => simp [levenshteinDistance]
      | cons y ys =>
        rw [levenshteinDistance]
        rw [show levenshteinDistance (y :: ys) (x :: xs)
            = min (min (levenshteinDistance ys (x :: xs) + 1)
                       (levenshteinDistance (y :: ys) xs + 1))
                  (levenshteinDistance ys xs + if y = x then 0 else 1) from by
          rw [levenshteinDistance]]
        simp only [List.length_cons] at h
        rw [ih xs (y :: ys) (by simp only [List.length_cons]; omega),
            ih (x :: xs) ys (by simp only [List.length_cons]; omega),
            ih xs ys (by omega)]
        rw [show (if x = y then 0 else 1) = (if y = x then 0 else 1) from by
          by_cases hxy : x = y
          · rw [if_pos hxy, if_pos hxy.symm]
          · rw [if_neg hxy, if_neg (fun hc => hxy hc.symm)]]
        rw [min_comm (levenshteinDistance (y :: ys) xs + 1)
          (levenshteinDistance ys (x :: xs) + 1)]

theorem commonStart_symm : ∀ s t : GoStr, commonStart s t = commonStart t s := by
  intro s
  induction s with
  | nil =>
    intro t
    cases t with
    | nil => rfl
    | cons y ys => rfl
  | cons x xs ih =>
    intro t
    cases t with
    | nil => rfl
    | cons y ys =>
      rw [commonStart, commonStart]
      by_cases hxy : x = y
      · rw [if_pos hxy, if_pos hxy.symm, ih ys]
      · rw [if_neg hxy, if_neg (fun hc => hxy hc.symm)]

theorem nodup_filter_mem_length {α : Type} [BEq α] [LawfulBEq α] (g1 g2 : List α)
    (h1 : g1.Nodup) (h2 : g2.Nodup) :
    (g1.filter fun g => g2.contains g).length = (g2.filter fun g => g1.contains g).length := by
  have hperm : (g1.filter fun g => g2.contains g).Perm (g2.filter fun g => g1.contains g) := by
    have hdec : DecidableEq α := fun a b => decidable_of_iff ((a == b) = true) (by simp)
    rw [List.perm_ext_iff_of_nodup (h1.filter _) (h2.filter _)]
    intro a
    constructor
    · intro ha
      have ham := List.mem_of_mem_filter ha
      have hac := List.of_mem_filter ha
      refine List.mem_filter.mpr ⟨by simpa using hac, by simpa using ham⟩
    · intro ha
      have ham := List.mem_of_mem_filter ha
      have hac := List.of_mem_filter ha
      refine List.mem_filter.mpr ⟨by simpa using hac, by simpa using ham⟩
  exact hperm.length_eq

theorem ngramSimilarity_symm (s1 s2 : GoStr) (n : Nat) :
    ngramSimilarity s1 s2 n = ngramSimilarity s2 s1 n := by
  unfold ngramSimilarity
  dsimp only
  have hcommon := nodup_filter_mem_length (getNgrams s1 n) (getNgrams s2 n)
    (getNgrams_nodup s1 n) (getNgrams_nodup s2 n)
  by_cases ha : (getNgrams s1 n).length = 0 <;>
    by_cases hb : (getNgrams s2 n).length = 0 <;>
      simp only [ha, hb, true_and, and_true, false_and, and_false, true_or, or_true,
        false_or, or_false, if_true, if_false, ite_true, ite_false, not_false_iff,
        and_self, or_self]
  simp only [hcommon]
  rw [add_comm ((getNgrams s1 n).length : ℤ) ((getNgrams s2 n).length : ℤ)]

theorem levenshteinSimilarity_symm (s1 s2 : GoStr) :
    levenshteinSimilarity s1 s2 = levenshteinSimilarity s2 s1 := by
  unfold levenshteinSimilarity
  dsimp only
  rw [max_comm s2.length s1.length,
    levenshteinDistance_symm (s1.length + s2.length) s1 s2 le_rfl]

-- ## per-class decomposition machinery for Jaro symmetry

theorem find?_min_sorted {l : List Nat} (hs : l.Pairwise (· < ·)) (p : Nat → Bool) :
    ∀ x, l.find? p = some x ↔ x ∈ l ∧ p x = true ∧ ∀ y ∈ l, p y = true → x ≤ y := by
  induction l with
  | nil => intro x; simp
  | cons a l ih =>
    intro x
    rcases List.pairwise_cons.mp hs with ⟨ha, hs'⟩
    by_cases hpa : p a = true
    · rw [List.find?_cons_of_pos _ hpa]
      constructor
      · intro h
        injection h with hax
        subst hax
        refine ⟨List.mem_cons_self a l, hpa, ?_⟩
        intro y hy _
        rcases List.mem_cons.mp hy with he | ht
        · omega
        · exact le_of_lt (ha y ht)
      · rintro ⟨hmem, hpx, hmin⟩
        have hxa : x = a := by
          have h1 : x ≤ a := hmin a (List.mem_cons_self a l) hpa
          rcases List.mem_cons.mp hmem with he | ht
          · exact he
          · have := ha x ht
            omega
        subst hxa
        rfl
    · rw [List.find?_cons_of_neg _ hpa]
      rw [ih hs' x]
      constructor
      · rintro ⟨hmem, hpx, hmin⟩
        refine ⟨List.mem_cons_of_mem a hmem, hpx, ?_⟩
        intro y hy hpy
        rcases List.mem_cons.mp hy with he | ht
        · subst he
          exact absurd hpy hpa
        · exact hmin y ht hpy
      · rintro ⟨hmem, hpx, hmin⟩
        have hxl : x ∈ l := by
          rcases List.mem_cons.mp hmem with he | ht
          · subst he
            exact absurd hpx hpa
          · exact ht
        exact ⟨hxl, hpx, fun y hy hpy => hmin y (List.mem_cons_of_mem a hy) hpy⟩

theorem find?_congr_sorted {l₁ l₂ : List Nat} (h₁ : l₁.Pairwise (· < ·))
    (h₂ : l₂.Pairwise (· < ·)) (p₁ p₂ : Nat → Bool)
    (hiff : ∀ x, (x ∈ l₁ ∧ p₁ x = true) ↔ (x ∈ l₂ ∧ p₂ x = true)) :
    l₁.find? p₁ = l₂.find? p₂ := by
  cases hf1 : l₁.find? p₁ with
  | none =>
    cases hf2 : l₂.find? p₂ with
    | none => rfl
    | some x =>
      rcases (find?_min_sorted h₂ p₂ x).mp hf2 with ⟨hmem, hpx, _⟩
      rcases (hiff x).mpr ⟨hmem, hpx⟩ with ⟨hm1, hp1⟩
      exact absurd hp1 (List.find?_eq_none.mp hf1 x hm1)
  | some x =>
    rcases (find?_min_sorted h₁ p₁ x).mp hf1 with ⟨hmem, hpx, hmin⟩
    rcases (hiff x).mp ⟨hmem, hpx⟩ with ⟨hmem2, hpx2⟩
    symm
    rw [find?_min_sorted h₂ p₂ x]
    refine ⟨hmem2, hpx2, ?_⟩
    intro y hy hpy
    rcases (hiff y).mpr ⟨hy, hpy⟩ with ⟨hy1, hpy1⟩
    exact hmin y hy1 hpy1

theorem contains_eq_decide_mem (M : List Nat) (x : Nat) : M.contains x = decide (x ∈ M) := by
  by_cases h : x ∈ M <;> simp_all [List.contains]

theorem jaroPick_eq_freeFind (s1 s2 : GoStr) (d : Nat) (M : List Nat) (i : Nat) :
    jaroPick s1 s2 d M i
      = (freePositions s2 (s1.getD i default) M).find?
          (fun b => decide (i ≤ b + d) && decide (b ≤ i + d)) := by
  unfold jaroPick freePositions
  apply find?_congr_sorted
  · exact List.pairwise_lt_range' _ _
  · exact (List.pairwise_lt_range _).filter _
  · intro x
    simp only [List.mem_range'_1, List.mem_filter, List.mem_range, Bool.and_eq_true,
      Bool.not_eq_true', beq_iff_eq, decide_eq_true_eq, contains_eq_decide_mem,
      decide_eq_false_iff_not]
    constructor
    · rintro ⟨⟨hlo, hhi⟩, hnm, hbeq⟩
      have hxlen : x < s2.length := by omega
      exact ⟨⟨hxlen, hbeq, hnm⟩, by omega, by omega⟩
    · rintro ⟨⟨hxlen, hbeq, hnm⟩, h1, h2⟩
      refine ⟨⟨by omega, by omega⟩, hnm, hbeq⟩

theorem freePositions_other (s2 : GoStr) (c : Char) (M : List Nat) (j : Nat)
    (hne : s2.getD j default ≠ c) :
    freePositions s2 c (M ++ [j]) = freePositions s2 c M := by
  unfold freePositions
  apply List.filter_congr
  intro x _
  by_cases hx : x = j
  · subst hx
    rw [beq_eq_false_iff_ne.mpr hne]
    simp
  · have : (M ++ [j]).contains x = M.contains x := by
      simp [contains_eq_decide_mem, hx]
    rw [this]

theorem freePositions_same (s2 : GoStr) (c : Char) (M : List Nat) (j : Nat)
    (hc : s2.getD j default = c) :
    (freePositions s2 c M).erase j = freePositions s2 c (M ++ [j]) := by
  have hnd : (freePositions s2 c M).Nodup :=
    (List.nodup_range _).filter _
  rw [hnd.erase_eq_filter]
  unfold freePositions
  rw [List.filter_filter]
  apply List.filter_congr
  intro x _
  by_cases hx : x = j
  · subst hx
    simp [contains_eq_decide_mem]
  · simp only [contains_eq_decide_mem, List.mem_append, List.mem_singleton, hx, or_false]
    by_cases hm : x ∈ M <;> by_cases hb : s2.getD x default = c <;>
      simp [hm, hb, hx]

theorem jaroScan_classes (s1 s2 : GoStr) (d : Nat) (c : Char) :
    ∀ (is : List Nat) (M : List Nat),
      (jaroScan s1 s2 d is M).filter (fun p => s1.getD p.1 default == c)
        = greedyPickList d (is.filter fun i => s1.getD i default == c)
            (freePositions s2 c M) := by
  intro is
  induction is with
  | nil => intro M; simp [jaroScan, greedyPickList]
  | cons i is ih =>
    intro M
    rw [jaroScan]
    by_cases hic : s1.getD i default = c
    · rw [List.filter_cons_of_pos (by simp only [beq_iff_eq]; exact hic)]
      rw [greedyPickList]
      cases hpick : jaroPick s1 s2 d M i with
      | some j =>
        have hfind : (freePositions s2 c M).find?
            (fun b => decide (i ≤ b + d) && decide (b ≤ i + d)) = some j := by
          rw [← hic, ← jaroPick_eq_freeFind]; exact hpick
        rw [hfind]
        rcases jaroPick_some s1 s2 d M i j hpick with ⟨-, hcj, -, -, -⟩
        rw [List.filter_cons_of_pos (by simp only [beq_iff_eq]; exact hic),
          ih (M ++ [j]), ← freePositions_same s2 c M j (hcj.trans hic)]
      | none =>
        have hfind : (freePositions s2 c M).find?
            (fun b => decide (i ≤ b + d) && decide (b ≤ i + d)) = none := by
          rw [← hic, ← jaroPick_eq_freeFind]; exact hpick
        rw [hfind]
        exact ih M
    · rw [List.filter_cons_of_neg (by simp only [beq_iff_eq]; exact hic)]
      cases hpick : jaroPick s1 s2 d M i with
      | some j =>
        rcases jaroPick_some s1 s2 d M i j hpick with ⟨-, hcj, -, -, -⟩
        rw [List.filter_cons_of_neg (by simp only [beq_iff_eq]; exact hic),
          ih (M ++ [j]), freePositions_other s2 c M j (by rw [hcj]; exact hic)]
      | none =>
        exact ih M

theorem greedy_nil_right (d : Nat) : ∀ A : List Nat, greedyPickList d A [] = [] := by
  intro A
  induction A with
  | nil => rfl
  | cons a A ih =>
    rw [greedyPickList, List.find?_nil]
    exact ih

theorem twoPointer_nil_left (d : Nat) (B : List Nat) : twoPointer d [] B = [] := by
  rw [twoPointer.eq_def]

theorem twoPointer_nil_right (d : Nat) (A : List Nat) : twoPointer d A [] = [] := by
  rw [twoPointer.eq_def]; cases A <;> rfl

theorem greedy_drop_dead (d b : Nat) :
    ∀ (A B : List Nat), (∀ a ∈ A, b + d < a) →
      greedyPickList d A (b :: B) = greedyPickList d A B := by
  intro A
  induction A with
  | nil => intro B _; rfl
  | cons a A ih =>
    intro B hdead
    have hba := hdead a (List.mem_cons_self a A)
    have hpb : ¬((fun x => decide (a ≤ x + d) && decide (x ≤ a + d)) b = true) := by
      simp only [Bool.and_eq_true, decide_eq_true_eq]
      rintro ⟨h1, h2⟩; omega
    have hstep : List.find? (fun x => decide (a ≤ x + d) && decide (x ≤ a + d)) (b :: B)
        = List.find? (fun x => decide (a ≤ x + d) && decide (x ≤ a + d)) B :=
      List.find?_cons_of_neg B hpb
    rw [greedyPickList, greedyPickList, hstep]
    cases hf : (B.find? fun x => decide (a ≤ x + d) && decide (x ≤ a + d)) with
    | none => exact ih B fun a' ha' => hdead a' (List.mem_cons_of_mem a ha')
    | some b' =>
      have hb' : b' ≠ b := by
        intro he
        have hp1 := List.find?_some hf
        rw [he] at hp1
        exact hpb hp1
      show (a, b') :: greedyPickList d A ((b :: B).erase b')
          = (a, b') :: greedyPickList d A (B.erase b')
      rw [List.erase_cons_tail (by simp only [beq_iff_eq]; exact fun h => hb' h.symm)]
      rw [ih (B.erase b') fun a' ha' => hdead a' (List.mem_cons_of_mem a ha')]

theorem greedy_eq_twoPointer (d : Nat) :
    ∀ (n : Nat) (A B : List Nat), A.length + B.length ≤ n →
      A.Pairwise (· < ·) → B.Pairwise (· < ·) →
      greedyPickList d A B = twoPointer d A B := by
  intro n
  induction n with
  | zero =>
    intro A B hlen _ _
    have hA : A = [] := List.eq_nil_of_length_eq_zero (by omega)
    have hB : B = [] := List.eq_nil_of_length_eq_zero (by omega)
    subst hA; subst hB
    rw [twoPointer_nil_left]; rfl
  | succ n ih =>
    intro A B hlen hA hB
    match A, B with
    | [], B => rw [twoPointer_nil_left]; rfl
    | a :: A, [] => rw [twoPointer_nil_right, greedy_nil_right]
    | a :: A, b :: B =>
      have hlen' : A.length + (b :: B).length ≤ n := by
        simp only [List.length_cons] at hlen ⊢; omega
      have hlen'' : (a :: A).length + B.length ≤ n := by
        simp only [List.length_cons] at hlen ⊢; omega
      have hlen''' : A.length + B.length ≤ n := by
        simp only [List.length_cons] at hlen; omega
      by_cases hba : b + d < a
      · have hdead : ∀ a' ∈ a :: A, b + d < a' := by
          intro a' ha'
          rcases List.mem_cons.mp ha' with he | hm
          · omega
          · have := (List.pairwise_cons.mp hA).1 a' hm
            omega
        rw [greedy_drop_dead d b (a :: A) B hdead]
        rw [twoPointer, if_pos hba]
        exact ih (a :: A) B hlen'' hA (List.Pairwise.of_cons hB)
      · by_cases hab : a + d < b
        · have hnone : ((b :: B).find? fun x => decide (a ≤ x + d) && decide (x ≤ a + d))
              = none := by
            rw [List.find?_eq_none]
            intro x hx
            have hbx : b ≤ x := by
              rcases List.mem_cons.mp hx with he | hm
              · omega
              · have := (List.pairwise_cons.mp hB).1 x hm
                omega
            simp only [Bool.and_eq_true, decide_eq_true_eq, not_and]
            intro _; omega
          rw [greedyPickList, hnone, twoPointer, if_neg hba, if_pos hab]
          exact ih A (b :: B) hlen' (List.Pairwise.of_cons hA) hB
        · have hpos : (fun x => decide (a ≤ x + d) && decide (x ≤ a + d)) b = true := by
            simp only [Bool.and_eq_true, decide_eq_true_eq]
            omega
          have hstep : List.find? (fun x => decide (a ≤ x + d) && decide (x ≤ a + d)) (b :: B)
              = some b :=
            List.find?_cons_of_pos B hpos
          rw [greedyPickList, hstep]
          show (a, b) :: greedyPickList d A ((b :: B).erase b) = twoPointer d (a :: A) (b :: B)
          rw [List.erase_cons_head, twoPointer, if_neg hba, if_neg hab]
          rw [ih A B hlen''' (List.Pairwise.of_cons hA) (List.Pairwise.of_cons hB)]

theorem twoPointer_swap (d : Nat) :
    ∀ (n : Nat) (A B : List Nat), A.length + B.length ≤ n →
      twoPointer d B A = (twoPointer d A B).map Prod.swap := by
  intro n
  induction n with
  | zero =>
    intro A B hlen
    have hA : A = [] := List.eq_nil_of_length_eq_zero (by omega)
    have hB : B = [] := List.eq_nil_of_length_eq_zero (by omega)
    subst hA; subst hB
    rw [twoPointer_nil_left]; rfl
  | succ n ih =>
    intro A B hlen
    match A, B with
    | [], B => rw [twoPointer_nil_left, twoPointer_nil_right]; rfl
    | a :: A, [] => rw [twoPointer_nil_left, twoPointer_nil_right]; rfl
    | a :: A, b :: B =>
      have hlen' : A.length + (b :: B).length ≤ n := by
        simp only [List.length_cons] at hlen ⊢; omega
      have hlen'' : (a :: A).length + B.length ≤ n := by
        simp only [List.length_cons] at hlen ⊢; omega
      have hlen''' : A.length + B.length ≤ n := by
        simp only [List.length_cons] at hlen; omega
      by_cases hba : b + d < a
      · have hab : ¬ a + d < b := by omega
        rw [twoPointer, if_neg (show ¬ a + d < b from hab), if_pos hba]
        rw [twoPointer, if_pos hba]
        exact ih (a :: A) B hlen''
      · by_cases hab : a + d < b
        · rw [twoPointer, if_pos hab]
          rw [twoPointer, if_neg hba, if_pos hab]
          exact ih A (b :: B) hlen'
        · rw [twoPointer, if_neg hab, if_neg hba]
          rw [twoPointer, if_neg hba, if_neg hab]
          rw [ih A B hlen''']
          rfl

theorem perm_flatMap_classes {α β : Type} [BEq β] [LawfulBEq β] (key : α → β) :
    ∀ (cs : List β) (l : List α), cs.Nodup → (∀ x ∈ l, key x ∈ cs) →
      (cs.flatMap fun c => l.filter fun x => key x == c).Perm l := by
  intro cs
  induction cs with
  | nil =>
    intro l _ hall
    have hl : l = [] := by
      cases l with
      | nil => rfl
      | cons x xs => exact absurd (hall x (List.mem_cons_self x xs)) (List.not_mem_nil _)
    subst hl
    simp
  | cons c cs ih =>
    intro l hnd hall
    rw [List.flatMap_cons]
    have hcn : c ∉ cs := (List.nodup_cons.mp hnd).1
    have hrest : (cs.flatMap fun c' => l.filter fun x => key x == c')
        = cs.flatMap fun c' => (l.filter fun x => !(key x == c)).filter
            fun x => key x == c' := by
      unfold List.flatMap
      congr 1
      apply List.map_congr_left
      intro c' hc'
      have hne : c' ≠ c := fun he => hcn (he ▸ hc')
      rw [List.filter_filter]
      apply List.filter_congr
      intro x _
      by_cases hk : key x = c'
      · have hnc : ¬ key x = c := fun he => hne (hk.symm.trans he)
        simp [hk, hnc, hne]
      · simp [hk]
    rw [hrest]
    have hperm2 : (cs.flatMap fun c' => (l.filter fun x => !(key x == c)).filter
        fun x => key x == c').Perm (l.filter fun x => !(key x == c)) := by
      apply ih _ (List.nodup_cons.mp hnd).2
      intro x hx
      rcases List.mem_filter.mp hx with ⟨hxl, hxc⟩
      rcases List.mem_cons.mp (hall x hxl) with he | hm
      · exfalso
        rw [he] at hxc
        simp at hxc
      · exact hm
    refine List.Perm.trans ?_ (List.filter_append_perm (fun x => key x == c) l)
    exact List.Perm.append_left _ hperm2

theorem freePositions_nil (s2 : GoStr) (c : Char) :
    freePositions s2 c []
      = (List.range s2.length).filter fun j => s2.getD j default == c := by
  unfold freePositions
  apply List.filter_congr
  intro x _
  simp [contains_eq_decide_mem]

theorem getD_mem_of_lt (l : GoStr) (i : Nat) (h : i < l.length) :
    l.getD i default ∈ l := by
  rw [List.getD_eq_getElem _ _ h]
  exact List.getElem_mem h

theorem scan_filter_eq_twoPointer (s1 s2 : GoStr) (d : Nat) (c : Char) :
    (jaroScan s1 s2 d (List.range s1.length) []).filter
        (fun p => s1.getD p.1 default == c)
      = twoPointer d
          ((List.range s1.length).filter fun i => s1.getD i default == c)
          ((List.range s2.length).filter fun j => s2.getD j default == c) := by
  rw [jaroScan_classes, freePositions_nil]
  apply greedy_eq_twoPointer d
    (((List.range s1.length).filter fun i => s1.getD i default == c).length
      + ((List.range s2.length).filter fun j => s2.getD j default == c).length)
    _ _ le_rfl
  · exact (List.pairwise_lt_range _).filter _
  · exact (List.pairwise_lt_range _).filter _

theorem jaroPairs_swap (s1 s2 : GoStr) (d : Nat) :
    (jaroPairs s2 s1 d).Perm ((jaroPairs s1 s2 d).map Prod.swap) := by
  rw [jaroPairs_eq_scan, jaroPairs_eq_scan]
  set cs := (s1 ++ s2).dedup with hcs
  have hnd : cs.Nodup := List.nodup_dedup _
  have hdecomp2 : (cs.flatMap fun c =>
      (jaroScan s2 s1 d (List.range s2.length) []).filter
        fun p => s2.getD p.1 default == c).Perm
      (jaroScan s2 s1 d (List.range s2.length) []) := by
    apply perm_flatMap_classes (fun p : Nat × Nat => s2.getD p.1 default) cs _ hnd
    intro p hp
    rcases jaroScan_mem s2 s1 d _ _ p hp with ⟨h1, -⟩
    have hlt : p.1 < s2.length := List.mem_range.mp h1
    rw [hcs, List.mem_dedup]
    exact List.mem_append_right s1 (getD_mem_of_lt s2 p.1 hlt)
  have hdecomp1 : (cs.flatMap fun c =>
      (jaroScan s1 s2 d (List.range s1.length) []).filter
        fun p => s1.getD p.1 default == c).Perm
      (jaroScan s1 s2 d (List.range s1.length) []) := by
    apply perm_flatMap_classes (fun p : Nat × Nat => s1.getD p.1 default) cs _ hnd
    intro p hp
    rcases jaroScan_mem s1 s2 d _ _ p hp with ⟨h1, -⟩
    have hlt : p.1 < s1.length := List.mem_range.mp h1
    rw [hcs, List.mem_dedup]
    exact List.mem_append_left s2 (getD_mem_of_lt s1 p.1 hlt)
  have hswap : (cs.flatMap fun c =>
      (jaroScan s2 s1 d (List.range s2.length) []).filter
        fun p => s2.getD p.1 default == c)
      = ((cs.flatMap fun c =>
          (jaroScan s1 s2 d (List.range s1.length) []).filter
            fun p => s1.getD p.1 default == c).map Prod.swap) := by
    rw [List.map_flatMap]
    unfold List.flatMap
    congr 1
    apply List.map_congr_left
    intro c _
    rw [scan_filter_eq_twoPointer s2 s1 d c, scan_filter_eq_twoPointer s1 s2 d c]
    apply twoPointer_swap d
      (((List.range s1.length).filter fun i => s1.getD i default == c).length
        + ((List.range s2.length).filter fun j => s2.getD j default == c).length)
    exact le_rfl
  exact (hdecomp2.symm.trans (hswap ▸ (hdecomp1.map Prod.swap))).symm.symm

theorem mergeSort_eq_sorted (l l' : List Nat) (hp : l.Perm l')
    (hs : l'.Pairwise (· < ·)) : l.mergeSort (fun a b => a ≤ b) = l' :=
  List.eq_of_perm_of_sorted ((List.mergeSort_perm l _).trans hp)
    (List.sorted_mergeSort' l) (hs.imp le_of_lt)

theorem jaroPairs_fst_sorted (s1 s2 : GoStr) (d : Nat) :
    ((jaroPairs s1 s2 d).map Prod.fst).Pairwise (· < ·) := by
  rw [jaroPairs_eq_scan]
  exact List.Pairwise.sublist
    (jaroScan_fst_sublist s1 s2 d (List.range s1.length) [])
    (List.pairwise_lt_range _)

theorem map_fst_swap (l : List (Nat × Nat)) :
    (l.map Prod.swap).map Prod.fst = l.map Prod.snd := by
  rw [List.map_map]; rfl

theorem map_snd_swap (l : List (Nat × Nat)) :
    (l.map Prod.swap).map Prod.snd = l.map Prod.fst := by
  rw [List.map_map]; rfl

theorem jaroLeftChars_swap (s1 s2 : GoStr) (d : Nat) :
    jaroLeftChars s2 (jaroPairs s2 s1 d) = jaroRightChars s2 (jaroPairs s1 s2 d) := by
  unfold jaroLeftChars jaroRightChars
  have hkey : ((jaroPairs s1 s2 d).map Prod.snd).mergeSort (fun a b => a ≤ b)
      = (jaroPairs s2 s1 d).map Prod.fst := by
    apply mergeSort_eq_sorted
    · have h := (jaroPairs_swap s1 s2 d).map Prod.fst
      rw [map_fst_swap] at h
      exact h.symm
    · exact jaroPairs_fst_sorted s2 s1 d
  rw [hkey, List.map_map]
  rfl

theorem jaroRightChars_swap (s1 s2 : GoStr) (d : Nat) :
    jaroRightChars s1 (jaroPairs s2 s1 d) = jaroLeftChars s1 (jaroPairs s1 s2 d) := by
  unfold jaroLeftChars jaroRightChars
  have hkey : ((jaroPairs s2 s1 d).map Prod.snd).mergeSort (fun a b => a ≤ b)
      = (jaroPairs s1 s2 d).map Prod.fst := by
    apply mergeSort_eq_sorted
    · have h := (jaroPairs_swap s1 s2 d).map Prod.snd
      rw [map_snd_swap] at h
      exact h
    · exact jaroPairs_fst_sorted s1 s2 d
  rw [hkey, List.map_map]
  rfl

theorem ne_filter_zip_comm (u v : List Char) :
    ((v.zip u).filter fun p => p.1 ≠ p.2).length
      = ((u.zip v).filter fun p => p.1 ≠ p.2).length := by
  rw [← List.zip_swap u v, List.filter_map, List.length_map]
  congr 1
  apply List.filter_congr
  intro p _
  simp only [Function.comp, Prod.fst_swap, Prod.snd_swap]
  exact decide_eq_decide.mpr ne_comm

theorem jaroTranspositions_swap (s1 s2 : GoStr) (d : Nat) :
    jaroTranspositions s2 s1 (jaroPairs s2 s1 d)
      = jaroTranspositions s1 s2 (jaroPairs s1 s2 d) := by
  unfold jaroTranspositions
  rw [jaroLeftChars_swap s1 s2 d, jaroRightChars_swap s1 s2 d]
  exact ne_filter_zip_comm (jaroLeftChars s1 (jaroPairs s1 s2 d))
    (jaroRightChars s2 (jaroPairs s1 s2 d))

theorem jaroSimilarity_symm (s1 s2 : GoStr) :
    jaroSimilarity s2 s1 = jaroSimilarity s1 s2 := by
  unfold jaroSimilarity
  by_cases he : s1 = s2
  · subst he; rfl
  · have he' : ¬ s2 = s1 := fun h => he h.symm
    rw [if_neg he', if_neg he]
    by_cases hz : s1.length = 0 ∨ s2.length = 0
    · rw [if_pos hz.symm, if_pos hz]
    · have hz' : ¬ (s2.length = 0 ∨ s1.length = 0) := fun h => hz h.symm
      rw [if_neg hz', if_neg hz]
      have hd : jaroMatchDistance s2.length s1.length
          = jaroMatchDistance s1.length s2.length := by
        unfold jaroMatchDistance; rw [Nat.max_comm]
      dsimp only
      rw [hd]
      have hm : (jaroPairs s2 s1 (jaroMatchDistance s1.length s2.length)).length
          = (jaroPairs s1 s2 (jaroMatchDistance s1.length s2.length)).length := by
        rw [(jaroPairs_swap s1 s2 _).length_eq, List.length_map]
      rw [hm, jaroTranspositions_swap s1 s2 _]
      by_cases hm0 : (jaroPairs s1 s2 (jaroMatchDistance s1.length s2.length)).length = 0
      · rw [if_pos hm0, if_pos hm0]
      · rw [if_neg hm0, if_neg hm0]
        ring

theorem jaroWinklerSimilarity_symm (s1 s2 : GoStr) :
    jaroWinklerSimilarity s2 s1 = jaroWinklerSimilarity s1 s2 := by
  unfold jaroWinklerSimilarity
  dsimp only
  rw [jaroSimilarity_symm s1 s2, commonStart_symm s2 s1]

theorem calculateNormalizedSimilarity_symm (n1 n2 : GoStr) :
    calculateNormalizedSimilarity n2 n1 = calculateNormalizedSimilarity n1 n2 := by
  unfold calculateNormalizedSimilarity
  by_cases he : n1 = n2
  · rw [if_pos he.symm, if_pos he]
  · rw [if_neg (fun h => he h.symm), if_neg he]
    dsimp only
    rw [levenshteinSimilarity_symm n2 n1, jaroWinklerSimilarity_symm n1 n2,
      ngramSimilarity_symm n2 n1 2]

/-- C4: the similarity score is symmetric in its two arguments and equals 100
on equal inputs: `CalculateNameSimilarity(a,b) = CalculateNameSimilarity(b,a)`
for all names, and `CalculateNameSimilarity(x,x) = 100` for every name. -/
theorem c4_score_symmetric_reflexive :
    (∀ a b : GoStr, calculateNameSimilarity a b = calculateNameSimilarity b a) ∧
    (∀ x : GoStr, calculateNameSimilarity x x = 100) := by
  constructor
  · intro a b
    unfold calculateNameSimilarity
    exact (calculateNormalizedSimilarity_symm (normalizeFilename a)
      (normalizeFilename b)).symm
  · intro x
    unfold calculateNameSimilarity calculateNormalizedSimilarity
    rw [if_pos rfl]
